import Mathlib

/-!
Verification of the identifier-resolution and tiered-search core of
sec-company-lookup. The Python sources under `sec_company_lookup/` are
shallowly embedded: dictionaries become insertion-ordered association
lists, exceptions become `Except`, SQLite-backed collaborators become
explicit function parameters, and while-loops become structural
recursion.
-/

namespace SecLookup

/-! ## Python-style string primitives (embedding of str.lower/upper/strip/split, `in`) -/

def lowerStr (s : String) : String := ⟨s.data.map Char.toLower⟩

def upperStr (s : String) : String := ⟨s.data.map Char.toUpper⟩

def isWs (c : Char) : Bool := c.isWhitespace

def trimStr (s : String) : String :=
  ⟨((s.data.dropWhile isWs).reverse.dropWhile isWs).reverse⟩

def splitWordsAux : List Char → List Char → List String
  | [], acc => if acc.isEmpty then [] else [String.mk acc.reverse]
  | c :: cs, acc =>
    if isWs c then
      if acc.isEmpty then splitWordsAux cs []
      else String.mk acc.reverse :: splitWordsAux cs []
    else splitWordsAux cs (c :: acc)

/-- Python str.split() with no argument: split on whitespace runs, no empty words. -/
def splitWords (s : String) : List String := splitWordsAux s.data []

/-- Python " ".join(words). -/
def joinSp : List String → String
  | [] => ""
  | [w] => w
  | w :: ws => w ++ " " ++ joinSp ws

/-- Python substring test: needle in hay. -/
def isSubList (needle : List Char) : List Char → Bool
  | [] => needle.isEmpty
  | c :: t => needle.isPrefixOf (c :: t) || isSubList needle t

/-! ## Python dict as insertion-ordered association list -/

def alistGet {κ α : Type} [BEq κ] (k : κ) : List (κ × α) → Option α
  | [] => none
  | (k2, v) :: rest => if k2 == k then some v else alistGet k rest

/-- Python dict assignment: replace in place if the key exists, else append. -/
def upsert {κ α : Type} [BEq κ] (k : κ) (v : α) : List (κ × α) → List (κ × α)
  | [] => [(k, v)]
  | (k2, v2) :: rest => if k2 == k then (k2, v) :: rest else (k2, v2) :: upsert k v rest

/-- The one-to-many index update pattern of _load_data_to_memory:
if k not in m then m[k] = [] fi; m[k].append(id). -/
def bucketAppend {κ : Type} [BEq κ] (k : κ) (id : Nat) :
    List (κ × List Nat) → List (κ × List Nat)
  | [] => [(k, [id])]
  | (k2, ids) :: rest =>
    if k2 == k then (k2, ids ++ [id]) :: rest else (k2, ids) :: bucketAppend k id rest

/-! ## Dynamic values and the identifier normalizer (utils.normalize_cik) -/

/-- A dynamically typed raw identifier, as Python passes it around:
a native int, a string, or anything else. -/
inductive PyVal : Type
  | int (n : Int)
  | str (s : String)
  | other
deriving DecidableEq

/-- Value of a digit string, as Python int() computes it on an all-digit string. -/
def digitsVal (l : List Char) : Nat := l.foldl (fun a c => 10 * a + (c.toNat - 48)) 0

/-- Python str.isdigit(): non-empty and all digits. -/
def pyIsDigit (l : List Char) : Bool := !l.isEmpty && l.all Char.isDigit

/-- Embedding of utils.normalize_cik: int passes through unchanged; a string is
stripped of leading zeros and parsed if the remainder is all digits; anything
else is None. -/
def normalize_cik : PyVal → Option Int
  | .int n => some n
  | .str s =>
    let stripped := s.data.dropWhile (fun c => c == '0')
    if pyIsDigit stripped then some ((digitsVal stripped : Nat) : Int) else none
  | .other => none

lemma digitsVal_dropWhile_zero (l : List Char) :
    digitsVal (l.dropWhile (fun c => c == '0')) = digitsVal l := by
  induction l with
  | nil => rfl
  | cons c t ih =>
    by_cases hc : c = '0'
    · subst hc
      simpa [digitsVal, List.dropWhile] using ih
    · have hb : (c == '0') = false := by simpa using hc
      simp [digitsVal, List.dropWhile, hb]

/-- C5: the identifier normalizer maps a purely numeric string to its integer
value with leading zeros stripped; an all-zero string (such as "0") strips to
nothing and yields Invalid (none); a native integer passes through unchanged,
so the integer 0 is a valid filer number while the string "0" is not. -/
theorem normalize_cik_spec (s : String) (n : Int)
    (hne : s.data ≠ []) (hdig : ∀ c ∈ s.data, c.isDigit) :
    ((∃ c ∈ s.data, c ≠ '0') →
        normalize_cik (.str s) = some ((digitsVal s.data : Nat) : Int)) ∧
    ((∀ c ∈ s.data, c = '0') → normalize_cik (.str s) = none) ∧
    normalize_cik (.int n) = some n ∧
    normalize_cik (.str "0") = none ∧
    normalize_cik (.int 0) = some 0 := by
  refine ⟨?_, ?_, rfl, by decide, rfl⟩
  · rintro ⟨c, hc, hc0⟩
    have hdrop : s.data.dropWhile (fun c => c == '0') ≠ [] := by
      intro h
      rw [List.dropWhile_eq_nil_iff] at h
      exact hc0 (by simpa using h c hc)
    have hsuffix : (s.data.dropWhile (fun c => c == '0')) <:+ s.data :=
      List.dropWhile_suffix _
    have hdig2 : ∀ d ∈ s.data.dropWhile (fun c => c == '0'), d.isDigit := by
      intro d hd
      exact hdig d (hsuffix.subset hd)
    have hpy : pyIsDigit (s.data.dropWhile (fun c => c == '0')) = true := by
      unfold pyIsDigit
      simp only [Bool.and_eq_true, Bool.not_eq_true']
      constructor
      · simpa [List.isEmpty_iff] using hdrop
      · rw [List.all_eq_true]
        intro d hd
        exact hdig2 d hd
    simp only [normalize_cik, hpy, if_true]
    rw [digitsVal_dropWhile_zero]
  · intro hall
    have hdrop : s.data.dropWhile (fun c => c == '0') = [] := by
      rw [List.dropWhile_eq_nil_iff]
      intro x hx
      simpa using hall x hx
    simp [normalize_cik, hdrop, pyIsDigit]

/-- C5 witness at s = "0123", n = 5: hypotheses hold and the normalizer
strips the leading zero. -/
theorem normalize_cik_spec_witness :
    ("0123".data ≠ [] ∧ ∀ c ∈ "0123".data, c.isDigit) ∧
    (((∃ c ∈ "0123".data, c ≠ '0') →
        normalize_cik (.str "0123") = some ((digitsVal "0123".data : Nat) : Int)) ∧
    ((∀ c ∈ "0123".data, c = '0') → normalize_cik (.str "0123") = none) ∧
    normalize_cik (.int 5) = some 5 ∧
    normalize_cik (.str "0") = none ∧
    normalize_cik (.int 0) = some 0) :=
  ⟨⟨by decide, by decide⟩, normalize_cik_spec "0123" 5 (by decide) (by decide)⟩

/-! ## Data model: entity records, outcomes, the in-memory cache -/

structure CompanyData where
  cik : Int
  ticker : String
  name : String
deriving DecidableEq

/-- The two error codes of structured lookup responses. -/
inductive ErrCode : Type
  | INVALID_INPUT
  | NOT_FOUND
deriving DecidableEq

/-- A structured lookup response: success with data, or error text plus code. -/
inductive Outcome (α : Type) : Type
  | success (data : α)
  | failure (error : String) (code : ErrCode)
deriving DecidableEq

/-- One value of the raw SEC data dict: either a dict with the three raw
fields (with the Python "or empty-string" defaults already applied), or a
non-dict value that index construction skips. -/
inductive Entry : Type
  | dict (cik : PyVal) (ticker : String) (title : String)
  | nondict
deriving DecidableEq

/-- The in-memory cache built by _load_data_to_memory. -/
structure Cache where
  companies : List (Nat × CompanyData)
  by_ticker : List (String × Nat)
  by_cik : List (Int × List Nat)
  by_name : List (String × List Nat)
deriving DecidableEq

structure LoadState where
  companies : List (Nat × CompanyData)
  by_ticker : List (String × Nat)
  by_cik : List (Int × List Nat)
  by_name : List (String × List Nat)
  counter : Nat

/-- Body of one loading-loop iteration for a dict-shaped snapshot value. -/
def loadDict (st : LoadState) (cikRaw : PyVal) (tickerRaw title : String) : LoadState :=
  match normalize_cik cikRaw with
  | none => st
  | some cikInt =>
    if upperStr tickerRaw ≠ "" ∧ title ≠ "" then
      { companies := st.companies ++ [(st.counter, ⟨cikInt, upperStr tickerRaw, title⟩)]
        by_ticker := upsert (upperStr tickerRaw) st.counter st.by_ticker
        by_cik := bucketAppend cikInt st.counter st.by_cik
        by_name := bucketAppend (lowerStr title) st.counter st.by_name
        counter := st.counter + 1 }
    else st

/-- One iteration of the loading loop in _load_data_to_memory. -/
def loadStep (st : LoadState) : Entry → LoadState
  | .nondict => st
  | .dict cikRaw tickerRaw title => loadDict st cikRaw tickerRaw title

/-- Embedding of _load_data_to_memory: fold the loading loop over the
snapshot values in iteration order. -/
def load_data_to_memory (entries : List Entry) : Cache :=
  let st := entries.foldl loadStep ⟨[], [], [], [], 0⟩
  ⟨st.companies, st.by_ticker, st.by_cik, st.by_name⟩

/-- Python _memory_cache["companies"][company_id]; total via a default that
is never reached on ids coming from the index maps (claim C9). -/
def getCompany (cache : Cache) (id : Nat) : CompanyData :=
  (alistGet id cache.companies).getD ⟨0, "", ""⟩

/-! ### Association-list lemmas -/

lemma alistGet_upsert_self {κ α : Type} [BEq κ] [LawfulBEq κ] (k : κ) (v : α)
    (m : List (κ × α)) : alistGet k (upsert k v m) = some v := by
  induction m with
  | nil => simp [upsert, alistGet]
  | cons kv rest ih =>
    obtain ⟨k2, v2⟩ := kv
    by_cases h : k2 = k
    · simp [upsert, alistGet, h]
    · simp [upsert, alistGet, h, ih]

lemma alistGet_upsert_ne {κ α : Type} [BEq κ] [LawfulBEq κ] (k k2 : κ) (v : α)
    (m : List (κ × α)) (h : k2 ≠ k) :
    alistGet k2 (upsert k v m) = alistGet k2 m := by
  induction m with
  | nil => simp [upsert, alistGet, Ne.symm h]
  | cons kv rest ih =>
    obtain ⟨k3, v3⟩ := kv
    by_cases hh : k3 = k
    · subst hh
      simp [upsert, alistGet, Ne.symm h]
    · simp [upsert, alistGet, hh, ih]

lemma upsert_mem_fst {κ α : Type} [BEq κ] [LawfulBEq κ] (k : κ) (v : α)
    (m : List (κ × α)) (kv : κ × α) (h : kv ∈ upsert k v m) :
    kv.1 = k ∨ kv ∈ m := by
  induction m with
  | nil => simp [upsert] at h; simp [h]
  | cons kv2 rest ih =>
    obtain ⟨k3, v3⟩ := kv2
    by_cases hh : k3 = k
    · subst hh
      simp only [upsert, beq_self_eq_true, if_true] at h
      rcases List.mem_cons.mp h with h1 | h1
      · left; rw [h1]
      · right; exact List.mem_cons_of_mem _ h1
    · rw [upsert, if_neg (by simpa using hh)] at h
      rcases List.mem_cons.mp h with h1 | h1
      · right; exact h1 ▸ List.mem_cons_self _ _
      · rcases ih h1 with h2 | h2
        · exact Or.inl h2
        · exact Or.inr (List.mem_cons_of_mem _ h2)

lemma upsert_mem_snd {κ α : Type} [BEq κ] [LawfulBEq κ] (k : κ) (v : α)
    (m : List (κ × α)) (kv : κ × α) (h : kv ∈ upsert k v m) :
    kv.2 = v ∨ kv ∈ m := by
  induction m with
  | nil => simp [upsert] at h; simp [h]
  | cons kv2 rest ih =>
    obtain ⟨k3, v3⟩ := kv2
    by_cases hh : k3 = k
    · subst hh
      simp only [upsert, beq_self_eq_true, if_true] at h
      rcases List.mem_cons.mp h with h1 | h1
      · left; rw [h1]
      · right; exact List.mem_cons_of_mem _ h1
    · rw [upsert, if_neg (by simpa using hh)] at h
      rcases List.mem_cons.mp h with h1 | h1
      · right; exact h1 ▸ List.mem_cons_self _ _
      · rcases ih h1 with h2 | h2
        · exact Or.inl h2
        · exact Or.inr (List.mem_cons_of_mem _ h2)

lemma bucketAppend_mem {κ : Type} [BEq κ] [LawfulBEq κ] (k : κ) (id : Nat)
    (m : List (κ × List Nat)) (kv : κ × List Nat) (h : kv ∈ bucketAppend k id m) :
    (∃ kv2 ∈ m, kv.2 = kv2.2 ++ [id]) ∨ kv.2 = [id] ∨ kv ∈ m := by
  induction m with
  | nil =>
    simp [bucketAppend] at h
    right; left; rw [h]
  | cons kv2 rest ih =>
    obtain ⟨k3, ids3⟩ := kv2
    by_cases hh : k3 = k
    · subst hh
      simp only [bucketAppend, beq_self_eq_true, if_true] at h
      rcases List.mem_cons.mp h with h1 | h1
      · exact Or.inl ⟨(k3, ids3), List.mem_cons_self _ _, by rw [h1]⟩
      · right; right; exact List.mem_cons_of_mem _ h1
    · rw [bucketAppend, if_neg (by simpa using hh)] at h
      rcases List.mem_cons.mp h with h1 | h1
      · right; right; exact h1 ▸ List.mem_cons_self _ _
      · rcases ih h1 with h2 | h2 | h2
        · rcases h2 with ⟨kv3, hm, he⟩
          exact Or.inl ⟨kv3, List.mem_cons_of_mem _ hm, he⟩
        · exact Or.inr (Or.inl h2)
        · exact Or.inr (Or.inr (List.mem_cons_of_mem _ h2))

lemma alistGet_append_left {κ α : Type} [BEq κ] (k : κ) (l1 l2 : List (κ × α))
    (h : (alistGet k l1).isSome) : alistGet k (l1 ++ l2) = alistGet k l1 := by
  induction l1 with
  | nil => simp [alistGet] at h
  | cons kv rest ih =>
    obtain ⟨k3, v3⟩ := kv
    by_cases hh : (k3 == k) = true
    · simp [alistGet, hh]
    · simp only [alistGet, if_neg hh] at h ⊢
      simpa [alistGet, hh] using ih h

lemma alistGet_append_singleton_self {κ α : Type} [BEq κ] [LawfulBEq κ]
    (k : κ) (v : α) (l : List (κ × α)) (h : alistGet k l = none) :
    alistGet k (l ++ [(k, v)]) = some v := by
  induction l with
  | nil => simp [alistGet]
  | cons kv rest ih =>
    obtain ⟨k3, v3⟩ := kv
    by_cases hh : (k3 == k) = true
    · simp [alistGet, hh] at h
    · simp only [alistGet, if_neg hh] at h ⊢
      simpa [alistGet, hh] using ih h

lemma alistGet_append_right {κ α : Type} [BEq κ] (k : κ) (l1 l2 : List (κ × α))
    (h : alistGet k l1 = none) : alistGet k (l1 ++ l2) = alistGet k l2 := by
  induction l1 with
  | nil => simp
  | cons kv rest ih =>
    obtain ⟨k3, v3⟩ := kv
    by_cases hh : (k3 == k) = true
    · simp [alistGet, hh] at h
    · simp only [alistGet, if_neg hh] at h ⊢
      simpa [List.cons_append, alistGet, hh] using ih h

/-! ### The index-construction invariant (claims C9 and C7) -/

/-- Invariant maintained by every iteration of the loading loop: all ids in
the three index maps are below the id counter, name buckets are strictly
ascending (insertion order), and the record store holds exactly the ids
below the counter. -/
def LoadInv (st : LoadState) : Prop :=
  (∀ kv ∈ st.by_ticker, kv.2 < st.counter) ∧
  (∀ kv ∈ st.by_cik, ∀ id ∈ kv.2, id < st.counter) ∧
  (∀ kv ∈ st.by_name, ∀ id ∈ kv.2, id < st.counter) ∧
  (∀ kv ∈ st.by_name, List.Chain' (· < ·) kv.2) ∧
  (∀ id, id < st.counter → (alistGet id st.companies).isSome = true) ∧
  (∀ id, st.counter ≤ id → alistGet id st.companies = none)

lemma loadStep_inv (st : LoadState) (e : Entry) (h : LoadInv st) :
    LoadInv (loadStep st e) := by
  obtain ⟨ht, hc, hn, hch, hs, hns⟩ := h
  cases e with
  | nondict => exact ⟨ht, hc, hn, hch, hs, hns⟩
  | dict cikRaw tickerRaw title =>
    show LoadInv (loadDict st cikRaw tickerRaw title)
    unfold loadDict
    cases hcik : normalize_cik cikRaw with
    | none => exact ⟨ht, hc, hn, hch, hs, hns⟩
    | some cikInt =>
      dsimp only
      by_cases hcond : upperStr tickerRaw ≠ "" ∧ title ≠ ""
      · rw [if_pos hcond]
        refine ⟨?_, ?_, ?_, ?_, ?_, ?_⟩ <;> dsimp only
        · intro kv hkv
          rcases upsert_mem_snd _ _ _ _ hkv with h1 | h1
          · simp [h1]
          · exact Nat.lt_succ_of_lt (ht kv h1)
        · intro kv hkv id hid
          rcases bucketAppend_mem _ _ _ _ hkv with ⟨kv2, hm, he⟩ | h1 | h1
          · rw [he] at hid
            rcases List.mem_append.mp hid with h2 | h2
            · exact Nat.lt_succ_of_lt (hc kv2 hm id h2)
            · simp at h2; omega
          · rw [h1] at hid; simp at hid; omega
          · exact Nat.lt_succ_of_lt (hc kv h1 id hid)
        · intro kv hkv id hid
          rcases bucketAppend_mem _ _ _ _ hkv with ⟨kv2, hm, he⟩ | h1 | h1
          · rw [he] at hid
            rcases List.mem_append.mp hid with h2 | h2
            · exact Nat.lt_succ_of_lt (hn kv2 hm id h2)
            · simp at h2; omega
          · rw [h1] at hid; simp at hid; omega
          · exact Nat.lt_succ_of_lt (hn kv h1 id hid)
        · intro kv hkv
          rcases bucketAppend_mem _ _ _ _ hkv with ⟨kv2, hm, he⟩ | h1 | h1
          · rw [he]
            rw [List.chain'_append]
            refine ⟨hch kv2 hm, List.chain'_singleton _, ?_⟩
            intro x hx y hy
            simp only [List.head?_cons, Option.mem_def, Option.some.injEq] at hy
            obtain ⟨hne2, hxl⟩ := List.mem_getLast?_eq_getLast hx
            subst hy
            exact hxl ▸ hn kv2 hm _ (List.getLast_mem hne2)
          · rw [h1]; exact List.chain'_singleton _
          · exact hch kv h1
        · intro id hid
          by_cases hlt : id < st.counter
          · rw [alistGet_append_left _ _ _ (hs id hlt)]
            exact hs id hlt
          · have heq : id = st.counter := by omega
            rw [heq, alistGet_append_singleton_self _ _ _ (hns st.counter (le_refl _))]
            rfl
        · intro id hid
          have h1 : alistGet id st.companies = none := hns id (by omega)
          rw [alistGet_append_right _ _ _ h1]
          have : (st.counter == id) = false := by simp; omega
          simp [alistGet, this]
      · rw [if_neg hcond]
        exact ⟨ht, hc, hn, hch, hs, hns⟩

lemma loadFold_inv (entries : List Entry) (st : LoadState) (h : LoadInv st) :
    LoadInv (entries.foldl loadStep st) := by
  induction entries generalizing st with
  | nil => exact h
  | cons e rest ih => exact ih _ (loadStep_inv st e h)

lemma load_inv (entries : List Entry) :
    LoadInv (entries.foldl loadStep ⟨[], [], [], [], 0⟩) := by
  apply loadFold_inv
  refine ⟨?_, ?_, ?_, ?_, ?_, ?_⟩ <;> intro kv h <;> simp_all [alistGet]

/-- C9: in the entity index built from any snapshot, every record id stored
in the ticker map, the filer-number (CIK) map, or the name map is a key of
the record store — no dangling ids are reachable from any index map. -/
theorem index_ids_exist (entries : List Entry) :
    (∀ kv ∈ (load_data_to_memory entries).by_ticker,
        (alistGet kv.2 (load_data_to_memory entries).companies).isSome = true) ∧
    (∀ kv ∈ (load_data_to_memory entries).by_cik, ∀ id ∈ kv.2,
        (alistGet id (load_data_to_memory entries).companies).isSome = true) ∧
    (∀ kv ∈ (load_data_to_memory entries).by_name, ∀ id ∈ kv.2,
        (alistGet id (load_data_to_memory entries).companies).isSome = true) := by
  obtain ⟨ht, hc, hn, _, hs, _⟩ := load_inv entries
  unfold load_data_to_memory
  exact ⟨fun kv hkv => hs _ (ht kv hkv),
         fun kv hkv id hid => hs _ (hc kv hkv id hid),
         fun kv hkv id hid => hs _ (hn kv hkv id hid)⟩

/-- C9 witness: on a concrete two-record snapshot, the id stored for ticker
AAPL is a key of the record store. -/
theorem index_ids_exist_witness :
    (alistGet ((("AAPL", 0) : String × Nat)).2
      (load_data_to_memory
        [.dict (.int 320193) "AAPL" "Apple Inc.",
         .dict (.str "1652044") "GOOGL" "Alphabet Inc."]).companies).isSome = true :=
  (index_ids_exist
    [.dict (.int 320193) "AAPL" "Apple Inc.",
     .dict (.str "1652044") "GOOGL" "Alphabet Inc."]).1 ("AAPL", 0) (by decide)

/-! ## Single-name resolution (get_company_by_name_single) and the
progressive-shortening fuzzy loop (claims C1 and C7) -/

/-- The scan inside the fuzzy while-loop: iterate the name index in
insertion order; whenever the candidate occurs inside an indexed
(lowercased) name, append every record of that bucket. -/
def collectMatchesAux (cache : Cache) (shortened : String) :
    List (String × List Nat) → List CompanyData
  | [] => []
  | (nm, ids) :: rest =>
    if isSubList shortened.data nm.data then
      ids.map (getCompany cache) ++ collectMatchesAux cache shortened rest
    else collectMatchesAux cache shortened rest

def collectMatches (cache : Cache) (shortened : String) : List CompanyData :=
  collectMatchesAux cache shortened cache.by_name

/-- The while-loop of get_company_by_name_single in fuzzy mode: join the
current words, lowercase, scan; one match returns it, several stop with
NOT_FOUND, none drops the last word. -/
def fuzzyShorten (cache : Cache) (origName : String) : List String → Outcome CompanyData
  | [] =>
    .failure ("Company name " ++ origName ++ " does not match any name") .NOT_FOUND
  | w :: ws =>
    if (collectMatches cache (lowerStr (joinSp (w :: ws)))).length = 1 then
      .success ((collectMatches cache (lowerStr (joinSp (w :: ws)))).headD ⟨0, "", ""⟩)
    else if 1 < (collectMatches cache (lowerStr (joinSp (w :: ws)))).length then
      .failure ("Company name " ++ origName ++ " does not match any name") .NOT_FOUND
    else fuzzyShorten cache origName (w :: ws).dropLast
termination_by words => words.length
decreasing_by simp [List.length_dropLast]

/-- Embedding of get_company_by_name_single: exact case-insensitive lookup
first (first bucket entry wins on multiple hits), then the fuzzy loop when
requested, else NOT_FOUND. -/
def get_company_by_name_single (cache : Cache) (name : String) (fuzzy : Bool) :
    Outcome CompanyData :=
  if trimStr name = "" then
    .failure "Invalid name: empty or whitespace" .INVALID_INPUT
  else
    let ns := trimStr name
    let ids := (alistGet (lowerStr ns) cache.by_name).getD []
    if ids.length = 1 then .success (getCompany cache (ids.headD 0))
    else if 1 < ids.length then .success (getCompany cache (ids.headD 0))
    else if fuzzy then fuzzyShorten cache name (splitWords ns)
    else .failure ("Company name " ++ name ++ " not found") .NOT_FOUND

/-! ### The claimed loop, stated from the spec text, and the refinement -/

/-- Outcome shape used to compare the code path against the claimed loop. -/
inductive FuzzyOutcome : Type
  | found (c : CompanyData)
  | notFound
deriving DecidableEq

def toFuzzyOutcome : Outcome CompanyData → FuzzyOutcome
  | .success c => .found c
  | .failure _ _ => .notFound

/-- Modelled from the claim text: the candidate string is the remaining
words, each lowercased, joined with single spaces. -/
def specCandidate (words : List String) : String := joinSp (words.map lowerStr)

/-- Modelled from the claim text: all records of every indexed name that
contains the candidate as a substring. -/
def specMatchRecords (cache : Cache) (cand : String) : List CompanyData :=
  ((cache.by_name.filter fun kv => isSubList cand.data kv.1.data).map
    fun kv => kv.2.map (getCompany cache)).flatten

/-- Modelled from the claim text: the progressive-shortening loop — exactly
one match returns it; more than one returns NOT_FOUND immediately; zero
drops the last word; an exhausted word list returns NOT_FOUND. -/
def specShortenLoop (cache : Cache) : List String → FuzzyOutcome
  | [] => .notFound
  | w :: ws =>
    if (specMatchRecords cache (specCandidate (w :: ws))).length = 1 then
      .found ((specMatchRecords cache (specCandidate (w :: ws))).headD ⟨0, "", ""⟩)
    else if 1 < (specMatchRecords cache (specCandidate (w :: ws))).length then .notFound
    else specShortenLoop cache (w :: ws).dropLast
termination_by words => words.length
decreasing_by simp [List.length_dropLast]

lemma collectMatchesAux_eq (cache : Cache) (cand : String)
    (l : List (String × List Nat)) :
    collectMatchesAux cache cand l =
      ((l.filter fun kv => isSubList cand.data kv.1.data).map
        fun kv => kv.2.map (getCompany cache)).flatten := by
  induction l with
  | nil => rfl
  | cons kv rest ih =>
    obtain ⟨nm, ids⟩ := kv
    by_cases h : isSubList cand.data nm.data
    · simp [collectMatchesAux, h, List.filter_cons, ih]
    · simp [collectMatchesAux, h, List.filter_cons, ih]

lemma data_append (a b : String) : (a ++ b).data = a.data ++ b.data := rfl

lemma lowerStr_append (a b : String) :
    lowerStr (a ++ b) = lowerStr a ++ lowerStr b := by
  unfold lowerStr
  apply String.ext
  simp [data_append]

lemma lowerStr_joinSp (ws : List String) :
    lowerStr (joinSp ws) = joinSp (ws.map lowerStr) := by
  induction ws with
  | nil => rfl
  | cons w rest ih =>
    cases rest with
    | nil => rfl
    | cons w2 rest2 =>
      show lowerStr (w ++ " " ++ joinSp (w2 :: rest2)) = _
      rw [lowerStr_append, lowerStr_append, ih]
      rfl

lemma collectMatches_eq_spec (cache : Cache) (w : String) (ws : List String) :
    collectMatches cache (lowerStr (joinSp (w :: ws))) =
      specMatchRecords cache (specCandidate (w :: ws)) := by
  unfold collectMatches specMatchRecords specCandidate
  rw [collectMatchesAux_eq, lowerStr_joinSp]

lemma fuzzyShorten_refines (cache : Cache) (origName : String) (words : List String) :
    toFuzzyOutcome (fuzzyShorten cache origName words) = specShortenLoop cache words := by
  induction words using fuzzyShorten.induct cache origName with
  | case1 =>
    unfold fuzzyShorten specShortenLoop
    rfl
  | case2 w ws hlen =>
    unfold fuzzyShorten specShortenLoop
    rw [collectMatches_eq_spec] at hlen
    rw [collectMatches_eq_spec]
    simp only [if_pos hlen]
    rfl
  | case3 w ws hlen hgt =>
    unfold fuzzyShorten specShortenLoop
    rw [collectMatches_eq_spec] at hlen hgt
    rw [collectMatches_eq_spec]
    simp only [if_neg hlen, if_pos hgt]
    rfl
  | case4 w ws hlen hgt ih =>
    unfold fuzzyShorten specShortenLoop
    rw [collectMatches_eq_spec] at hlen hgt
    rw [collectMatches_eq_spec]
    simp only [if_neg hlen, if_neg hgt]
    exact ih

lemma fuzzyShorten_fail_code (cache : Cache) (o : String) (words : List String) :
    ∀ e c, fuzzyShorten cache o words = .failure e c → c = ErrCode.NOT_FOUND := by
  induction words using fuzzyShorten.induct cache o with
  | case1 =>
    intro e c h
    unfold fuzzyShorten at h
    exact (((Outcome.failure.injEq _ _ _ _).mp h).2).symm
  | case2 w ws hlen =>
    intro e c h
    unfold fuzzyShorten at h
    rw [if_pos hlen] at h
    exact absurd h (by simp)
  | case3 w ws hlen hgt =>
    intro e c h
    unfold fuzzyShorten at h
    rw [if_neg hlen, if_pos hgt] at h
    exact (((Outcome.failure.injEq _ _ _ _).mp h).2).symm
  | case4 w ws hlen hgt ih =>
    intro e c h
    unfold fuzzyShorten at h
    rw [if_neg hlen, if_neg hgt] at h
    exact ih e c h

/-- C1: for a name query with no exact case-insensitive hit in the name
index, fuzzy single-name resolution follows the progressive-shortening loop
stated by the spec (split the trimmed query on whitespace; join remaining
words lowercased with single spaces; substring-match against every indexed
name; exactly one match succeeds with that record, several stop immediately
with NOT_FOUND, zero drops the last word; exhaustion gives NOT_FOUND), and
every failure it returns carries error code NOT_FOUND. -/
theorem name_fuzzy_progressive_shortening (cache : Cache) (name : String)
    (hne : trimStr name ≠ "")
    (hnoexact : (alistGet (lowerStr (trimStr name)) cache.by_name).getD [] = []) :
    toFuzzyOutcome (get_company_by_name_single cache name true) =
      specShortenLoop cache (splitWords (trimStr name)) ∧
    (∀ e c, get_company_by_name_single cache name true = .failure e c →
      c = ErrCode.NOT_FOUND) := by
  have hmain : get_company_by_name_single cache name true =
      fuzzyShorten cache name (splitWords (trimStr name)) := by
    unfold get_company_by_name_single
    rw [if_neg hne]
    simp only [hnoexact]
    rfl
  constructor
  · rw [hmain]
    exact fuzzyShorten_refines cache name (splitWords (trimStr name))
  · intro e c hfail
    rw [hmain] at hfail
    exact fuzzyShorten_fail_code cache name (splitWords (trimStr name)) e c hfail

/-- C1 witness: corpus with names Apple Inc. and Alphabet Inc.; the query
"Apple Computer" has no exact hit, and the loop drops "Computer" and then
uniquely matches Apple Inc. -/
theorem name_fuzzy_progressive_shortening_witness :
    (trimStr "Apple Computer" ≠ "" ∧
     (alistGet (lowerStr (trimStr "Apple Computer"))
        (load_data_to_memory
          [.dict (.int 320193) "AAPL" "Apple Inc.",
           .dict (.int 1652044) "GOOGL" "Alphabet Inc."]).by_name).getD [] = []) ∧
    (toFuzzyOutcome
        (get_company_by_name_single
          (load_data_to_memory
            [.dict (.int 320193) "AAPL" "Apple Inc.",
             .dict (.int 1652044) "GOOGL" "Alphabet Inc."]) "Apple Computer" true) =
      specShortenLoop
        (load_data_to_memory
          [.dict (.int 320193) "AAPL" "Apple Inc.",
           .dict (.int 1652044) "GOOGL" "Alphabet Inc."])
        (splitWords (trimStr "Apple Computer")) ∧
     (∀ e c, get_company_by_name_single
          (load_data_to_memory
            [.dict (.int 320193) "AAPL" "Apple Inc.",
             .dict (.int 1652044) "GOOGL" "Alphabet Inc."]) "Apple Computer" true =
          .failure e c → c = ErrCode.NOT_FOUND)) :=
  ⟨⟨by decide, by decide⟩,
   name_fuzzy_progressive_shortening _ "Apple Computer" (by decide) (by decide)⟩

lemma alistGet_mem {κ α : Type} [BEq κ] (k : κ) (m : List (κ × α)) (v : α)
    (h : alistGet k m = some v) : ∃ k2, (k2, v) ∈ m := by
  induction m with
  | nil => simp [alistGet] at h
  | cons kv rest ih =>
    obtain ⟨k3, v3⟩ := kv
    by_cases hh : (k3 == k) = true
    · simp only [alistGet, if_pos hh, Option.some.injEq] at h
      exact ⟨k3, by rw [h]; exact List.mem_cons_self _ _⟩
    · simp only [alistGet, if_neg hh] at h
      obtain ⟨k2, hm⟩ := ih h
      exact ⟨k2, List.mem_cons_of_mem _ hm⟩

/-- C7: when exact case-insensitive lookup yields more than one record,
single-name resolution (any fuzzy flag) succeeds with the record stored
first in the bucket; the bucket ids are strictly ascending in load order,
so that record is the first-loaded one among the exact hits. -/
theorem name_exact_multiple_first_wins (entries : List Entry) (name : String)
    (fz : Bool) (ids : List Nat)
    (hne : trimStr name ≠ "")
    (hb : alistGet (lowerStr (trimStr name)) (load_data_to_memory entries).by_name =
      some ids)
    (hlen : 1 < ids.length) :
    get_company_by_name_single (load_data_to_memory entries) name fz =
      .success (getCompany (load_data_to_memory entries) (ids.headD 0)) ∧
    List.Chain' (· < ·) ids ∧
    (∀ id ∈ ids, ids.headD 0 ≤ id) := by
  have hchain : List.Chain' (· < ·) ids := by
    have hinv := load_inv entries
    obtain ⟨_, _, _, hch, _, _⟩ := hinv
    obtain ⟨k2, hm⟩ := alistGet_mem _ _ _ hb
    exact hch (k2, ids) hm
  refine ⟨?_, hchain, ?_⟩
  · unfold get_company_by_name_single
    rw [if_neg hne]
    simp only [hb, Option.getD_some]
    rw [if_neg (by omega), if_pos hlen]
  · cases ids with
    | nil => simp at hlen
    | cons a t =>
      intro id hid
      rcases List.mem_cons.mp hid with h1 | h1
      · simp [h1]
      · have hp : List.Pairwise (· < ·) (a :: t) :=
          (List.chain'_iff_pairwise).mp hchain
        have := (List.pairwise_cons.mp hp).1 id h1
        simp only [List.headD_cons]
        omega

/-- C7 witness: two records share the title Apple; lookup by "APPLE" returns
the record loaded first (id 0), and the bucket [0, 1] is ascending. -/
theorem name_exact_multiple_first_wins_witness :
    (trimStr "APPLE" ≠ "" ∧
     alistGet (lowerStr (trimStr "APPLE"))
        (load_data_to_memory
          [.dict (.int 1) "AAA" "Apple", .dict (.int 2) "BBB" "Apple"]).by_name =
        some [0, 1] ∧
     1 < ([0, 1] : List Nat).length) ∧
    (get_company_by_name_single
        (load_data_to_memory
          [.dict (.int 1) "AAA" "Apple", .dict (.int 2) "BBB" "Apple"]) "APPLE" false =
      .success (getCompany
        (load_data_to_memory
          [.dict (.int 1) "AAA" "Apple", .dict (.int 2) "BBB" "Apple"])
        (([0, 1] : List Nat).headD 0)) ∧
     List.Chain' (· < ·) ([0, 1] : List Nat) ∧
     (∀ id ∈ ([0, 1] : List Nat), ([0, 1] : List Nat).headD 0 ≤ id)) :=
  ⟨⟨by decide, by decide, by decide⟩,
   name_exact_multiple_first_wins
     [.dict (.int 1) "AAA" "Apple", .dict (.int 2) "BBB" "Apple"]
     "APPLE" false [0, 1] (by decide) (by decide) (by decide)⟩

/-! ## Ranked search (search_companies_impl and
search_companies_by_company_name_impl, claims C2, C3, C8, C10).
The persistent index (db.search_companies_db and
db.search_companies_by_company_name_db) is an explicit collaborator that
either returns a result list or fails (sqlite3.Error); the Bool in the
result records whether the persistent index was consulted. -/

/-- Python list slicing l[:limit] for an int limit: nonnegative limits take
a prefix; negative limits drop the last -limit elements. -/
def pyTake {α : Type} (l : List α) (limit : Int) : List α :=
  if 0 ≤ limit then l.take limit.toNat else l.take ((l.length : Int) + limit).toNat

/-- The dedup key used when merging persistent-index results. -/
def pairOf (c : CompanyData) : Int × String := (c.cik, c.ticker)

/-- The exact tier of search_companies_impl: exact ticker hit first, then
the exact-name bucket, deduplicated by record id. -/
def exactTier (cache : Cache) (qs : String) : List CompanyData × List Nat :=
  ((alistGet (lowerStr qs) cache.by_name).getD []).foldl
    (fun p id =>
      if p.2.contains id then p else (p.1 ++ [getCompany cache id], p.2 ++ [id]))
    (match alistGet (upperStr qs) cache.by_ticker with
     | some id => ([getCompany cache id], [id])
     | none => ([], []))

def exactResults (cache : Cache) (qs : String) : List CompanyData :=
  (exactTier cache qs).1

/-- The exact tier of search_companies_by_company_name_impl: the whole
exact-name bucket in insertion order. -/
def nameExactResults (cache : Cache) (qs : String) : List CompanyData :=
  ((alistGet (lowerStr qs) cache.by_name).getD []).map (getCompany cache)

/-- The merge loop over persistent-index (or fallback) results: stop at the
limit, skip results whose (filer_number, ticker) pair is already present. -/
def mergeDb (limit : Int) : List CompanyData → List CompanyData → List CompanyData
  | acc, [] => acc
  | acc, d :: ds =>
    if limit ≤ (acc.length : Int) then acc
    else if acc.any (fun r => pairOf r == pairOf d) then mergeDb limit acc ds
    else mergeDb limit (acc ++ [d]) ds

/-- Ticker scan of _search_companies_memory (appends, then breaks once the
limit is reached). -/
def memScanT (cache : Cache) (qL : String) (limit : Int) :
    List (String × Nat) → List CompanyData × List Nat → List CompanyData × List Nat
  | [], p => p
  | (tk, id) :: rest, p =>
    if isSubList qL.data (lowerStr tk).data && !(p.2.contains id) then
      if limit ≤ ((p.1.length + 1 : Nat) : Int) then (p.1 ++ [getCompany cache id], p.2 ++ [id])
      else memScanT cache qL limit rest (p.1 ++ [getCompany cache id], p.2 ++ [id])
    else memScanT cache qL limit rest p

/-- Inner loop of the name scan of _search_companies_memory. -/
def memScanInner (cache : Cache) (qL nm : String) (limit : Int) :
    List Nat → List CompanyData × List Nat → List CompanyData × List Nat
  | [], p => p
  | id :: rest, p =>
    if !(p.2.contains id) && isSubList qL.data nm.data then
      if limit ≤ ((p.1.length + 1 : Nat) : Int) then (p.1 ++ [getCompany cache id], p.2 ++ [id])
      else memScanInner cache qL nm limit rest (p.1 ++ [getCompany cache id], p.2 ++ [id])
    else memScanInner cache qL nm limit rest p

/-- Outer loop of the name scan of _search_companies_memory. -/
def memScanN (cache : Cache) (qL : String) (limit : Int) :
    List (String × List Nat) → List CompanyData × List Nat → List CompanyData × List Nat
  | [], p => p
  | (nm, ids) :: rest, p =>
    if limit ≤ (((memScanInner cache qL nm limit ids p).1.length : Nat) : Int) then
      memScanInner cache qL nm limit ids p
    else memScanN cache qL limit rest (memScanInner cache qL nm limit ids p)

/-- Embedding of _search_companies_memory: fuzzy substring scan over
by_ticker, then by_name if still under the limit; exact mode returns []. -/
def search_companies_memory (cache : Cache) (q : String) (limit : Int)
    (fuzzy : Bool) : List CompanyData :=
  if fuzzy then
    if ((memScanT cache (lowerStr q) limit cache.by_ticker ([], [])).1.length : Int) < limit then
      (memScanN cache (lowerStr q) limit cache.by_name
        (memScanT cache (lowerStr q) limit cache.by_ticker ([], []))).1
    else (memScanT cache (lowerStr q) limit cache.by_ticker ([], [])).1
  else []

/-- Embedding of search_companies_impl. The second component records
whether the persistent index was consulted. -/
def search_companies_impl (cache : Cache)
    (db : String → Int → Bool → Except Unit (List CompanyData))
    (query : Option String) (limit : Int) (fuzzy : Bool) :
    List CompanyData × Bool :=
  match query with
  | none => ([], false)
  | some q =>
    if trimStr q = "" then ([], false)
    else if limit ≤ ((exactResults cache (trimStr q)).length : Int) ∧ fuzzy = false then
      (pyTake (exactResults cache (trimStr q)) limit, false)
    else if ((exactResults cache (trimStr q)).length : Int) < limit then
      match db (trimStr q) limit fuzzy with
      | .ok dbr =>
        (pyTake (mergeDb limit (exactResults cache (trimStr q)) dbr) limit, true)
      | .error _ =>
        (pyTake (mergeDb limit (exactResults cache (trimStr q))
          (search_companies_memory cache (trimStr q) limit fuzzy)) limit, true)
    else (pyTake (exactResults cache (trimStr q)) limit, false)

/-- Embedding of search_companies_by_company_name_impl; its error fallback
is the single-name resolver. -/
def search_companies_by_company_name_impl (cache : Cache)
    (db : String → Int → Bool → Except Unit (List CompanyData))
    (query : Option String) (limit : Int) (fuzzy : Bool) :
    List CompanyData × Bool :=
  match query with
  | none => ([], false)
  | some q =>
    if trimStr q = "" then ([], false)
    else if limit ≤ ((nameExactResults cache (trimStr q)).length : Int) ∧ fuzzy = false then
      (pyTake (nameExactResults cache (trimStr q)) limit, false)
    else if ((nameExactResults cache (trimStr q)).length : Int) < limit then
      match db (trimStr q) limit fuzzy with
      | .ok dbr =>
        (pyTake (mergeDb limit (nameExactResults cache (trimStr q)) dbr) limit, true)
      | .error _ =>
        match get_company_by_name_single cache (trimStr q) fuzzy with
        | .success c =>
          if ((nameExactResults cache (trimStr q)).length : Int) < limit then
            if (nameExactResults cache (trimStr q)).any (fun r => pairOf r == pairOf c) then
              (pyTake (nameExactResults cache (trimStr q)) limit, true)
            else (pyTake (nameExactResults cache (trimStr q) ++ [c]) limit, true)
          else (pyTake (nameExactResults cache (trimStr q)) limit, true)
        | .failure _ _ => (pyTake (nameExactResults cache (trimStr q)) limit, true)
    else (pyTake (nameExactResults cache (trimStr q)) limit, false)

/-! ### Claim C10: empty / None / whitespace-only search queries -/

/-- C10: ranked search (both variants) on an empty, None, or whitespace-only
query returns the empty list and never consults the in-memory index or the
persistent index (the consulted flag is false and the result is independent
of the cache and the collaborator). -/
theorem search_blank_query_returns_empty (cache : Cache)
    (dbs dbn : String → Int → Bool → Except Unit (List CompanyData))
    (limit : Int) (fuzzy : Bool) (q : String) (h : trimStr q = "") :
    search_companies_impl cache dbs (some q) limit fuzzy = ([], false) ∧
    search_companies_by_company_name_impl cache dbn (some q) limit fuzzy = ([], false) ∧
    search_companies_impl cache dbs none limit fuzzy = ([], false) ∧
    search_companies_by_company_name_impl cache dbn none limit fuzzy = ([], false) := by
  refine ⟨?_, ?_, rfl, rfl⟩
  · unfold search_companies_impl
    dsimp only
    rw [if_pos h]
  · unfold search_companies_by_company_name_impl
    dsimp only
    rw [if_pos h]

/-- C10 witness: a whitespace-only query on a concrete one-record corpus. -/
theorem search_blank_query_returns_empty_witness :
    (trimStr "   " = "") ∧
    (search_companies_impl (load_data_to_memory [.dict (.int 320193) "AAPL" "Apple Inc."])
        (fun _ _ _ => .ok []) (some "   ") 10 true = ([], false) ∧
     search_companies_by_company_name_impl
        (load_data_to_memory [.dict (.int 320193) "AAPL" "Apple Inc."])
        (fun _ _ _ => .ok []) (some "   ") 10 true = ([], false) ∧
     search_companies_impl (load_data_to_memory [.dict (.int 320193) "AAPL" "Apple Inc."])
        (fun _ _ _ => .ok []) none 10 true = ([], false) ∧
     search_companies_by_company_name_impl
        (load_data_to_memory [.dict (.int 320193) "AAPL" "Apple Inc."])
        (fun _ _ _ => .ok []) none 10 true = ([], false)) :=
  ⟨by decide,
   search_blank_query_returns_empty _ _ _ 10 true "   " (by decide)⟩

/-! ### Claim C2: when is the persistent index consulted -/

lemma search_consulted (cache : Cache)
    (dbs : String → Int → Bool → Except Unit (List CompanyData))
    (q : String) (limit : Int) (fuzzy : Bool) (hq : trimStr q ≠ "") :
    (search_companies_impl cache dbs (some q) limit fuzzy).2 =
      decide (((exactResults cache (trimStr q)).length : Int) < limit) := by
  unfold search_companies_impl
  dsimp only
  rw [if_neg hq]
  by_cases h1 : limit ≤ ((exactResults cache (trimStr q)).length : Int) ∧ fuzzy = false
  · rw [if_pos h1]
    have h2 : ¬ ((exactResults cache (trimStr q)).length : Int) < limit := by
      omega
    simp [h2]
  · rw [if_neg h1]
    by_cases h2 : ((exactResults cache (trimStr q)).length : Int) < limit
    · rw [if_pos h2]
      cases dbs (trimStr q) limit fuzzy <;> simp [h2]
    · rw [if_neg h2]
      simp [h2]

lemma name_search_consulted (cache : Cache)
    (dbn : String → Int → Bool → Except Unit (List CompanyData))
    (q : String) (limit : Int) (fuzzy : Bool) (hq : trimStr q ≠ "") :
    (search_companies_by_company_name_impl cache dbn (some q) limit fuzzy).2 =
      decide (((nameExactResults cache (trimStr q)).length : Int) < limit) := by
  unfold search_companies_by_company_name_impl
  dsimp only
  rw [if_neg hq]
  by_cases h1 : limit ≤ ((nameExactResults cache (trimStr q)).length : Int) ∧ fuzzy = false
  · rw [if_pos h1]
    have h2 : ¬ ((nameExactResults cache (trimStr q)).length : Int) < limit := by
      omega
    simp [h2]
  · rw [if_neg h1]
    by_cases h2 : ((nameExactResults cache (trimStr q)).length : Int) < limit
    · rw [if_pos h2]
      cases dbn (trimStr q) limit fuzzy with
      | ok dbr => simp [h2]
      | error e =>
        cases get_company_by_name_single cache (trimStr q) fuzzy with
        | success c =>
          dsimp only
          rw [if_pos h2]
          split <;> simp [h2]
        | failure e2 c2 => simp [h2]
    · rw [if_neg h2]
      simp [h2]

/-- C2 counterexample: one-record corpus, query AAPL, limit 1, fuzzy=True.
The exact ticker tier already reaches the limit, and contrary to the claim
the persistent index is NOT consulted (the else-branch only fires when
the exact results are strictly below the limit). -/
theorem search_fuzzy_at_limit_skips_db :
    1 ≤ ((exactResults (load_data_to_memory [.dict (.int 320193) "AAPL" "Apple Inc."])
          (trimStr "AAPL")).length : Int) ∧
    (search_companies_impl (load_data_to_memory [.dict (.int 320193) "AAPL" "Apple Inc."])
        (fun _ _ _ => .ok []) (some "AAPL") 1 true).2 = false := by
  decide

/-- C2 (amended): for a non-blank query, either search variant consults the
persistent index exactly when its exact-tier results are strictly fewer
than the limit — the fuzzy flag plays no role in the decision, so with
fuzzy=True and exact results at or above the limit the persistent index is
not consulted (the returned list, already at the limit, is the same either
way). -/
theorem search_db_consult_iff (cache : Cache)
    (dbs dbn : String → Int → Bool → Except Unit (List CompanyData))
    (q : String) (limit : Int) (fuzzy : Bool) (hq : trimStr q ≠ "") :
    ((search_companies_impl cache dbs (some q) limit fuzzy).2 = true ↔
      ((exactResults cache (trimStr q)).length : Int) < limit) ∧
    ((search_companies_by_company_name_impl cache dbn (some q) limit fuzzy).2 = true ↔
      ((nameExactResults cache (trimStr q)).length : Int) < limit) := by
  constructor
  · rw [search_consulted cache dbs q limit fuzzy hq]
    simp
  · rw [name_search_consulted cache dbn q limit fuzzy hq]
    simp

/-- C2 witness: on a one-record corpus with limit 5 the exact tier is
under-filled and both search variants consult the persistent index. -/
theorem search_db_consult_iff_witness :
    (trimStr "AAPL" ≠ "") ∧
    (((search_companies_impl (load_data_to_memory [.dict (.int 320193) "AAPL" "Apple Inc."])
          (fun _ _ _ => .ok []) (some "AAPL") 5 false).2 = true ↔
        ((exactResults (load_data_to_memory [.dict (.int 320193) "AAPL" "Apple Inc."])
          (trimStr "AAPL")).length : Int) < 5) ∧
     ((search_companies_by_company_name_impl
          (load_data_to_memory [.dict (.int 320193) "AAPL" "Apple Inc."])
          (fun _ _ _ => .ok []) (some "AAPL") 5 false).2 = true ↔
        ((nameExactResults (load_data_to_memory [.dict (.int 320193) "AAPL" "Apple Inc."])
          (trimStr "AAPL")).length : Int) < 5)) :=
  ⟨by decide,
   search_db_consult_iff _ (fun _ _ _ => .ok []) (fun _ _ _ => .ok [])
     "AAPL" 5 false (by decide)⟩

/-! ### Claim C3: limit zero and negative limits -/

lemma pyTake_zero {α : Type} (l : List α) : pyTake l 0 = [] := by
  simp [pyTake]

/-- C3 counterexample: a corpus where the query Foo hits both the exact
ticker tier (ticker FOO) and the exact name tier (name Foo); with
limit = -1 the Python slice results[:-1] keeps the first of the two exact
hits, so the search result is NOT empty. -/
theorem search_negative_limit_nonempty :
    (search_companies_impl
        (load_data_to_memory [.dict (.int 1) "FOO" "Bar", .dict (.int 2) "BAZ" "Foo"])
        (fun _ _ _ => .ok []) (some "Foo") (-1) true).1 =
      [⟨1, "FOO", "Bar"⟩] ∧
    (search_companies_impl
        (load_data_to_memory [.dict (.int 1) "FOO" "Bar", .dict (.int 2) "BAZ" "Foo"])
        (fun _ _ _ => .ok []) (some "Foo") (-1) true).1 ≠ [] := by
  decide

/-- C3 (amended): limit 0 (and a None query) always yields the empty list;
a negative limit is not treated as zero — the persistent index is not
consulted and the exact-tier results are truncated by the Python slice
results[:limit], which drops the last -limit elements and is therefore
empty only when the exact tier has at most -limit hits. -/
theorem search_nonpositive_limit (cache : Cache)
    (dbs : String → Int → Bool → Except Unit (List CompanyData))
    (q : String) (limit : Int) (fuzzy : Bool) :
    (search_companies_impl cache dbs (some q) 0 fuzzy).1 = [] ∧
    (search_companies_impl cache dbs none limit fuzzy).1 = [] ∧
    (limit < 0 → trimStr q ≠ "" →
      search_companies_impl cache dbs (some q) limit fuzzy =
        (pyTake (exactResults cache (trimStr q)) limit, false)) := by
  refine ⟨?_, rfl, ?_⟩
  · unfold search_companies_impl
    dsimp only
    by_cases h0 : trimStr q = ""
    · rw [if_pos h0]
    · rw [if_neg h0]
      have h2 : ¬ ((exactResults cache (trimStr q)).length : Int) < 0 := by omega
      by_cases h1 : (0 : Int) ≤ ((exactResults cache (trimStr q)).length : Int) ∧
          fuzzy = false
      · rw [if_pos h1]
        simp [pyTake_zero]
      · rw [if_neg h1, if_neg h2]
        simp [pyTake_zero]
  · intro hneg hq
    unfold search_companies_impl
    dsimp only
    rw [if_neg hq]
    have hle : limit ≤ ((exactResults cache (trimStr q)).length : Int) := by omega
    have h2 : ¬ ((exactResults cache (trimStr q)).length : Int) < limit := by omega
    by_cases hf : fuzzy = false
    · rw [if_pos ⟨hle, hf⟩]
    · rw [if_neg (by tauto), if_neg h2]

/-- C3 witness: limit 0 yields empty on a concrete corpus, and limit -1
equals the exact tier truncated by the negative slice. -/
theorem search_nonpositive_limit_witness :
    (search_companies_impl
        (load_data_to_memory [.dict (.int 1) "FOO" "Bar", .dict (.int 2) "BAZ" "Foo"])
        (fun _ _ _ => .ok []) (some "Foo") 0 true).1 = [] ∧
    ((-1 : Int) < 0 ∧ trimStr "Foo" ≠ "") ∧
    search_companies_impl
        (load_data_to_memory [.dict (.int 1) "FOO" "Bar", .dict (.int 2) "BAZ" "Foo"])
        (fun _ _ _ => .ok []) (some "Foo") (-1) true =
      (pyTake (exactResults
          (load_data_to_memory [.dict (.int 1) "FOO" "Bar", .dict (.int 2) "BAZ" "Foo"])
          (trimStr "Foo")) (-1), false) :=
  ⟨(search_nonpositive_limit _ (fun _ _ _ => .ok []) "Foo" (-1) true).1,
   ⟨by decide, by decide⟩,
   (search_nonpositive_limit _ (fun _ _ _ => .ok []) "Foo" (-1) true).2.2
     (by decide) (by decide)⟩

/-! ### Claim C8: (filer_number, ticker) pair dedup in ranked search -/

lemma mergeDb_nodup (limit : Int) (l acc : List CompanyData)
    (h : (acc.map pairOf).Nodup) : ((mergeDb limit acc l).map pairOf).Nodup := by
  induction l generalizing acc with
  | nil => simpa [mergeDb] using h
  | cons d ds ih =>
    unfold mergeDb
    by_cases h1 : limit ≤ (acc.length : Int)
    · rw [if_pos h1]; exact h
    · rw [if_neg h1]
      by_cases h2 : acc.any (fun r => pairOf r == pairOf d) = true
      · rw [if_pos h2]
        exact ih acc h
      · rw [if_neg h2]
        apply ih
        have hnotin : pairOf d ∉ acc.map pairOf := by
          simp only [List.any_eq_true, beq_iff_eq] at h2
          push_neg at h2
          simp only [List.mem_map]
          rintro ⟨r, hr, he⟩
          exact h2 r hr he
        rw [List.map_append]
        simp [List.nodup_append, h, hnotin]

lemma pyTake_nodup (l : List CompanyData) (limit : Int)
    (h : (l.map pairOf).Nodup) : ((pyTake l limit).map pairOf).Nodup := by
  have hgen : ∀ n : Nat, ((l.take n).map pairOf).Nodup := by
    intro n
    rw [List.map_take]
    exact List.Nodup.sublist (List.take_sublist n _) h
  unfold pyTake
  split
  · exact hgen _
  · exact hgen _

/-- C8 counterexample: two stored records share the pair (1, AAPL) (same
normalized filer number and uppercased ticker, same case-insensitive name):
both enter through the exact name tier, whose dedup is by record id, not by
pair, so the ranked result contains the pair twice. -/
theorem search_duplicate_pair_from_exact_tier :
    (((search_companies_impl
        (load_data_to_memory
          [.dict (.int 1) "AAPL" "Apple Inc", .dict (.str "1") "aapl" "APPLE INC"])
        (fun _ _ _ => .ok []) (some "Apple Inc") 10 false).1).map pairOf) =
      [(1, "AAPL"), (1, "AAPL")] ∧
    ¬ (((search_companies_impl
        (load_data_to_memory
          [.dict (.int 1) "AAPL" "Apple Inc", .dict (.str "1") "aapl" "APPLE INC"])
        (fun _ _ _ => .ok []) (some "Apple Inc") 10 false).1).map pairOf).Nodup := by
  constructor
  · decide
  · decide

/-- C8 (amended): results merged from the persistent-index tier (or from
the in-memory error fallback) always carry a (filer_number, ticker) pair
distinct from every pair already present, so whenever the exact-tier hits
themselves have pairwise-distinct pairs — in particular for a record
matching both the exact-ticker tier and the persistent-index tier — each
pair appears at most once in the ranked result. Duplicates can arise only
inside the exact tier, when distinct stored records share a pair. -/
theorem search_pair_dedup (cache : Cache)
    (dbs : String → Int → Bool → Except Unit (List CompanyData))
    (q : String) (limit : Int) (fuzzy : Bool)
    (hnodup : ((exactResults cache (trimStr q)).map pairOf).Nodup) :
    (((search_companies_impl cache dbs (some q) limit fuzzy).1).map pairOf).Nodup := by
  unfold search_companies_impl
  dsimp only
  by_cases h0 : trimStr q = ""
  · rw [if_pos h0]; simp
  · rw [if_neg h0]
    by_cases h1 : limit ≤ ((exactResults cache (trimStr q)).length : Int) ∧ fuzzy = false
    · rw [if_pos h1]
      exact pyTake_nodup _ _ hnodup
    · rw [if_neg h1]
      by_cases h2 : ((exactResults cache (trimStr q)).length : Int) < limit
      · rw [if_pos h2]
        cases dbs (trimStr q) limit fuzzy with
        | ok dbr => exact pyTake_nodup _ _ (mergeDb_nodup _ _ _ hnodup)
        | error e => exact pyTake_nodup _ _ (mergeDb_nodup _ _ _ hnodup)
      · rw [if_neg h2]
        exact pyTake_nodup _ _ hnodup

/-- C8 witness: concrete corpus whose exact tier has distinct pairs; the
ranked result (exact hit plus a persistent-index duplicate of it) keeps
each pair once. -/
theorem search_pair_dedup_witness :
    ((exactResults (load_data_to_memory [.dict (.int 320193) "AAPL" "Apple Inc."])
        (trimStr "AAPL")).map pairOf).Nodup ∧
    (((search_companies_impl
        (load_data_to_memory [.dict (.int 320193) "AAPL" "Apple Inc."])
        (fun _ _ _ => .ok [⟨320193, "AAPL", "Apple Inc."⟩]) (some "AAPL") 10
        true).1).map pairOf).Nodup :=
  ⟨by decide,
   search_pair_dedup _ (fun _ _ _ => .ok [⟨320193, "AAPL", "Apple Inc."⟩])
     "AAPL" 10 true (by decide)⟩

/-! ## Batch coordinators (get_companies_by_tickers_batch and
get_companies_by_ciks_batch, claims C4 and C6). The bulk persistent-index
queries (db.get_companies_by_tickers_db / get_companies_by_ciks_db) are
explicit collaborators returning Except. -/

/-- Python repr-ish rendering used inside error strings. -/
def pyRepr : PyVal → String
  | .int n => toString n
  | .str s => s
  | .other => "object"

/-- The dict-comprehension pattern key(x): x over elements with a key
(last writer wins, first-occurrence position). -/
def buildMap {κ β : Type} [BEq κ] (keyOf : β → Option κ) (l : List β) :
    List (κ × β) :=
  l.foldl (fun m x =>
    match keyOf x with
    | some k => upsert k x m
    | none => m) []

/-- Key of a raw ticker: its stripped uppercase form, when non-blank. -/
def tickerKey (t : String) : Option String :=
  if trimStr t = "" then none else some (upperStr (trimStr t))

/-- Embedding of ticker_map = \x7bt.strip().upper(): t for t in tickers if t and t.strip()\x7d. -/
def buildTickerMap (tickers : List String) : List (String × String) :=
  buildMap tickerKey tickers

/-- Embedding of get_company_by_ticker_single (memory path). -/
def get_company_by_ticker_single (cache : Cache) (ticker : String) :
    Outcome CompanyData :=
  if trimStr ticker = "" then
    .failure "Invalid ticker: empty or whitespace" .INVALID_INPUT
  else
    match alistGet (upperStr (trimStr ticker)) cache.by_ticker with
    | some id => .success (getCompany cache id)
    | none => .failure ("Ticker " ++ ticker ++ " not found") .NOT_FOUND

/-- The loop recording INVALID_INPUT for each empty/whitespace ticker. -/
def invalidTickerResults (tickers : List String) :
    List (String × Outcome CompanyData) :=
  (tickers.filter fun t => trimStr t == "").foldl
    (fun r t =>
      upsert t (Outcome.failure "Invalid ticker: empty or whitespace" .INVALID_INPUT) r)
    []

/-- The db-failure fallback loop: one single-ticker resolution per valid
normalized key, recorded under the original raw form. -/
def tickersFallback (cache : Cache) (tickers : List String) :
    List (String × Outcome CompanyData) :=
  ((buildTickerMap tickers).map (·.1)).foldl
    (fun r tu =>
      upsert ((alistGet tu (buildTickerMap tickers)).getD "")
        (get_company_by_ticker_single cache tu) r)
    (invalidTickerResults tickers)

/-- Outcome derived from one bulk-query row of the ticker batch. -/
def tickerDbOutcome (orig : String) (companies : List CompanyData) :
    Outcome CompanyData :=
  match companies with
  | [] => .failure ("Ticker " ++ orig ++ " not found") .NOT_FOUND
  | c :: _ => .success c

/-- Embedding of get_companies_by_tickers_batch. A bulk row whose key is
not in ticker_map raises a KeyError that the broad except catches, so that
case also takes the fallback path. -/
def get_companies_by_tickers_batch (cache : Cache)
    (db : List String → Except Unit (List (String × List CompanyData)))
    (tickers : List String) : List (String × Outcome CompanyData) :=
  if tickers.isEmpty then []
  else
    match db ((buildTickerMap tickers).map (·.1)) with
    | .ok dbr =>
      if dbr.all (fun kv => (alistGet kv.1 (buildTickerMap tickers)).isSome) then
        dbr.foldl
          (fun r kv =>
            upsert ((alistGet kv.1 (buildTickerMap tickers)).getD "")
              (tickerDbOutcome ((alistGet kv.1 (buildTickerMap tickers)).getD "") kv.2) r)
          (invalidTickerResults tickers)
      else tickersFallback cache tickers
    | .error _ => tickersFallback cache tickers

/-- Embedding of get_company_by_cik_single (memory path). -/
def get_company_by_cik_single (cache : Cache) (cik : PyVal) :
    Outcome (List CompanyData) :=
  match normalize_cik cik with
  | none =>
    .failure ("Invalid CIK: " ++ pyRepr cik ++ " could not be normalized") .INVALID_INPUT
  | some n =>
    if ((alistGet n cache.by_cik).getD []).isEmpty then
      .failure ("CIK " ++ pyRepr cik ++ " not found") .NOT_FOUND
    else .success (((alistGet n cache.by_cik).getD []).map (getCompany cache))

/-- normalized_ciks, in input order, duplicates kept. -/
def normCiks (ciks : List PyVal) : List Int := ciks.filterMap normalize_cik

/-- cik_map: normalized value to original raw form, last writer wins. -/
def cikMap (ciks : List PyVal) : List (Int × PyVal) := buildMap normalize_cik ciks

/-- INVALID_INPUT entries for the raw identifiers that fail normalization. -/
def invalidCikResults (ciks : List PyVal) :
    List (PyVal × Outcome (List CompanyData)) :=
  (ciks.filter fun c => (normalize_cik c).isNone).foldl
    (fun r c =>
      upsert c
        (Outcome.failure ("Invalid CIK: " ++ pyRepr c ++ " could not be normalized")
          .INVALID_INPUT) r)
    []

/-- The db-failure fallback loop of the CIK batch. -/
def ciksFallback (cache : Cache) (ciks : List PyVal) :
    List (PyVal × Outcome (List CompanyData)) :=
  (normCiks ciks).foldl
    (fun r n =>
      upsert ((alistGet n (cikMap ciks)).getD .other)
        (get_company_by_cik_single cache ((alistGet n (cikMap ciks)).getD .other)) r)
    (invalidCikResults ciks)

/-- Outcome derived from one bulk-query row of the CIK batch. -/
def cikDbOutcome (orig : PyVal) (companies : List CompanyData) :
    Outcome (List CompanyData) :=
  if companies.isEmpty then
    .failure ("CIK " ++ pyRepr orig ++ " not found") .NOT_FOUND
  else .success companies

/-- Embedding of get_companies_by_ciks_batch: INVALID_INPUT entries first,
then the bulk rows, then the ensure-all loop; a foreign bulk key or a bulk
failure takes the fallback path. -/
def get_companies_by_ciks_batch (cache : Cache)
    (db : List Int → Except Unit (List (Int × List CompanyData)))
    (ciks : List PyVal) : List (PyVal × Outcome (List CompanyData)) :=
  if ciks.isEmpty then []
  else
    match db (normCiks ciks) with
    | .ok dbr =>
      if dbr.all (fun kv => (alistGet kv.1 (cikMap ciks)).isSome) then
        (cikMap ciks).foldl
          (fun r kv =>
            if (alistGet kv.2 r).isSome then r
            else upsert kv.2 (Outcome.failure ("CIK " ++ pyRepr kv.2 ++ " not found")
              .NOT_FOUND) r)
          (dbr.foldl
            (fun r kv =>
              upsert ((alistGet kv.1 (cikMap ciks)).getD .other)
                (cikDbOutcome ((alistGet kv.1 (cikMap ciks)).getD .other) kv.2) r)
            (invalidCikResults ciks))
      else ciksFallback cache ciks
    | .error _ => ciksFallback cache ciks

/-! ### Generic lemmas about foldl-of-upsert maps -/

lemma upsert_mem {κ α : Type} [BEq κ] [LawfulBEq κ] (k : κ) (v : α)
    (m : List (κ × α)) (kv : κ × α) (h : kv ∈ upsert k v m) :
    kv = (k, v) ∨ kv ∈ m := by
  induction m with
  | nil => simp [upsert] at h; simp [h]
  | cons kv2 rest ih =>
    obtain ⟨k3, v3⟩ := kv2
    by_cases hh : k3 = k
    · subst hh
      simp only [upsert, beq_self_eq_true, if_true] at h
      rcases List.mem_cons.mp h with h1 | h1
      · exact Or.inl h1
      · exact Or.inr (List.mem_cons_of_mem _ h1)
    · rw [upsert, if_neg (by simpa using hh)] at h
      rcases List.mem_cons.mp h with h1 | h1
      · exact Or.inr (h1 ▸ List.mem_cons_self _ _)
      · rcases ih h1 with h2 | h2
        · exact Or.inl h2
        · exact Or.inr (List.mem_cons_of_mem _ h2)

lemma alistGet_mem_self {κ α : Type} [BEq κ] [LawfulBEq κ] (k : κ)
    (m : List (κ × α)) (v : α) (h : alistGet k m = some v) : (k, v) ∈ m := by
  induction m with
  | nil => simp [alistGet] at h
  | cons kv rest ih =>
    obtain ⟨k3, v3⟩ := kv
    by_cases hh : k3 = k
    · subst hh
      simp only [alistGet, beq_self_eq_true, if_true, Option.some.injEq] at h
      exact h ▸ List.mem_cons_self _ _
    · rw [alistGet, if_neg (by simpa using hh)] at h
      exact List.mem_cons_of_mem _ (ih h)

lemma foldl_upsert_mem {κ2 κ α : Type} [BEq κ] [LawfulBEq κ]
    (g : κ2 → κ) (f : κ2 → α) (ks : List κ2) (acc : List (κ × α))
    (kv : κ × α) (h : kv ∈ ks.foldl (fun r u => upsert (g u) (f u) r) acc) :
    kv ∈ acc ∨ ∃ u ∈ ks, kv = (g u, f u) := by
  induction ks generalizing acc with
  | nil => exact Or.inl h
  | cons u rest ih =>
    rcases ih (upsert (g u) (f u) acc) h with h1 | h1
    · rcases upsert_mem _ _ _ _ h1 with h2 | h2
      · exact Or.inr ⟨u, List.mem_cons_self _ _, h2⟩
      · exact Or.inl h2
    · obtain ⟨u2, hu2, he⟩ := h1
      exact Or.inr ⟨u2, List.mem_cons_of_mem _ hu2, he⟩

lemma foldl_upsert_pres {κ2 κ α : Type} [BEq κ] [LawfulBEq κ]
    (g : κ2 → κ) (f : κ2 → α) (ks : List κ2) (acc : List (κ × α)) (k : κ)
    (h : ∀ u ∈ ks, g u ≠ k) :
    alistGet k (ks.foldl (fun r u => upsert (g u) (f u) r) acc) = alistGet k acc := by
  induction ks generalizing acc with
  | nil => rfl
  | cons u rest ih =>
    rw [List.foldl_cons, ih _ (fun u2 hu2 => h u2 (List.mem_cons_of_mem _ hu2)),
      alistGet_upsert_ne _ _ _ _ (Ne.symm (h u (List.mem_cons_self _ _)))]

lemma foldl_upsert_get_cov {κ2 κ α : Type} [BEq κ] [LawfulBEq κ]
    (g : κ2 → κ) (f : κ2 → α) (ks : List κ2) (acc : List (κ × α)) (tu : κ2)
    (hcov : ∃ u ∈ ks, g u = g tu)
    (hinj : ∀ u ∈ ks, g u = g tu → f u = f tu) :
    alistGet (g tu) (ks.foldl (fun r u => upsert (g u) (f u) r) acc) =
      some (f tu) := by
  induction ks generalizing acc with
  | nil => simp at hcov
  | cons u rest ih =>
    rw [List.foldl_cons]
    by_cases hex : ∃ u2 ∈ rest, g u2 = g tu
    · exact ih (upsert (g u) (f u) acc) hex
        (fun u3 hu3 => hinj u3 (List.mem_cons_of_mem _ hu3))
    · have hu : g u = g tu := by
        obtain ⟨u2, hu2, hg2⟩ := hcov
        rcases List.mem_cons.mp hu2 with h1 | h1
        · rw [← h1]; exact hg2
        · exact absurd ⟨u2, h1, hg2⟩ hex
      push_neg at hex
      rw [foldl_upsert_pres _ _ _ _ _ hex, ← hu,
        alistGet_upsert_self, hinj u (List.mem_cons_self _ _) hu]

lemma foldl_upsert_get {κ2 κ α : Type} [BEq κ] [LawfulBEq κ]
    (g : κ2 → κ) (f : κ2 → α) (ks : List κ2) (acc : List (κ × α)) (tu : κ2)
    (htu : tu ∈ ks) (hinj : ∀ u ∈ ks, g u = g tu → f u = f tu) :
    alistGet (g tu) (ks.foldl (fun r u => upsert (g u) (f u) r) acc) =
      some (f tu) :=
  foldl_upsert_get_cov g f ks acc tu ⟨tu, htu, rfl⟩ hinj

lemma foldl_upsert_isSome_mono {κ2 κ α : Type} [BEq κ] [LawfulBEq κ]
    (g : κ2 → κ) (f : κ2 → α) (ks : List κ2) (acc : List (κ × α)) (k : κ)
    (h : (alistGet k acc).isSome = true) :
    (alistGet k (ks.foldl (fun r u => upsert (g u) (f u) r) acc)).isSome = true := by
  induction ks generalizing acc with
  | nil => exact h
  | cons u rest ih =>
    rw [List.foldl_cons]
    apply ih
    by_cases hk : g u = k
    · rw [← hk, alistGet_upsert_self]; rfl
    · rw [alistGet_upsert_ne _ _ _ _ (Ne.symm hk)]; exact h

lemma buildMap_mem_aux {κ β : Type} [BEq κ] [LawfulBEq κ] (keyOf : β → Option κ) :
    ∀ (l : List β) (acc : List (κ × β)) (kv : κ × β),
      kv ∈ l.foldl
        (fun m x => match keyOf x with | some k => upsert k x m | none => m) acc →
      kv ∈ acc ∨ (keyOf kv.2 = some kv.1 ∧ kv.2 ∈ l) := by
  intro l
  induction l with
  | nil => intro acc kv h; exact Or.inl h
  | cons x rest ih =>
    intro acc kv h
    rw [List.foldl_cons] at h
    rcases ih _ kv h with h1 | h1
    · cases hx : keyOf x with
      | none => rw [hx] at h1; exact Or.inl h1
      | some k =>
        rw [hx] at h1
        rcases upsert_mem _ _ _ _ h1 with h2 | h2
        · right
          rw [h2]
          exact ⟨hx, List.mem_cons_self _ _⟩
        · exact Or.inl h2
    · exact Or.inr ⟨h1.1, List.mem_cons_of_mem _ h1.2⟩

lemma buildMap_mem {κ β : Type} [BEq κ] [LawfulBEq κ] (keyOf : β → Option κ)
    (l : List β) (kv : κ × β) (h : kv ∈ buildMap keyOf l) :
    keyOf kv.2 = some kv.1 ∧ kv.2 ∈ l := by
  rcases buildMap_mem_aux keyOf l [] kv h with h1 | h1
  · simp at h1
  · exact h1

lemma buildMap_isSome_mono {κ β : Type} [BEq κ] [LawfulBEq κ] (keyOf : β → Option κ) :
    ∀ (l : List β) (acc : List (κ × β)) (k : κ),
      (alistGet k acc).isSome = true →
      (alistGet k (l.foldl
        (fun m x => match keyOf x with | some k => upsert k x m | none => m) acc)).isSome
        = true := by
  intro l
  induction l with
  | nil => intro acc k h; exact h
  | cons x rest ih =>
    intro acc k h
    rw [List.foldl_cons]
    apply ih
    cases hx : keyOf x with
    | none => exact h
    | some k2 =>
      by_cases hk : k2 = k
      · rw [← hk, alistGet_upsert_self]; rfl
      · rw [alistGet_upsert_ne _ _ _ _ (Ne.symm hk)]; exact h

lemma buildMap_covers_aux {κ β : Type} [BEq κ] [LawfulBEq κ] (keyOf : β → Option κ) :
    ∀ (l : List β) (acc : List (κ × β)) (x : β) (k : κ), x ∈ l → keyOf x = some k →
      (alistGet k (l.foldl
        (fun m x => match keyOf x with | some k => upsert k x m | none => m) acc)).isSome
        = true := by
  intro l
  induction l with
  | nil => intro acc x k hx _; simp at hx
  | cons y rest ih =>
    intro acc x k hx hk
    rw [List.foldl_cons]
    rcases List.mem_cons.mp hx with h1 | h1
    · subst h1
      apply buildMap_isSome_mono
      rw [hk]
      rw [alistGet_upsert_self]
      rfl
    · exact ih _ x k h1 hk

lemma buildMap_covers {κ β : Type} [BEq κ] [LawfulBEq κ] (keyOf : β → Option κ)
    (l : List β) (x : β) (k : κ) (hx : x ∈ l) (hk : keyOf x = some k) :
    (alistGet k (buildMap keyOf l)).isSome = true :=
  buildMap_covers_aux keyOf l [] x k hx hk

lemma upsert_keys_nodup {κ α : Type} [BEq κ] [LawfulBEq κ] (k : κ) (v : α)
    (m : List (κ × α)) (h : (m.map (·.1)).Nodup) :
    ((upsert k v m).map (·.1)).Nodup := by
  induction m with
  | nil => simp [upsert]
  | cons kv rest ih =>
    obtain ⟨k3, v3⟩ := kv
    simp only [List.map_cons, List.nodup_cons] at h
    by_cases hh : k3 = k
    · subst hh
      simp only [upsert, beq_self_eq_true, if_true, List.map_cons, List.nodup_cons]
      exact ⟨h.1, h.2⟩
    · rw [upsert, if_neg (by simpa using hh)]
      simp only [List.map_cons, List.nodup_cons]
      refine ⟨?_, ih h.2⟩
      intro hmem
      rcases List.mem_map.mp hmem with ⟨kv2, hkv2, he⟩
      rcases upsert_mem _ _ _ _ hkv2 with h2 | h2
      · exact hh (by rw [h2] at he; exact he.symm)
      · exact h.1 (he ▸ List.mem_map_of_mem _ h2)

lemma buildMap_keys_nodup_aux {κ β : Type} [BEq κ] [LawfulBEq κ]
    (keyOf : β → Option κ) :
    ∀ (l : List β) (acc : List (κ × β)), ((acc.map (·.1)).Nodup) →
      (((l.foldl (fun m x => match keyOf x with | some k => upsert k x m | none => m)
        acc).map (·.1)).Nodup) := by
  intro l
  induction l with
  | nil => intro acc h; exact h
  | cons x rest ih =>
    intro acc h
    rw [List.foldl_cons]
    apply ih
    cases hx : keyOf x with
    | none => exact h
    | some k => exact upsert_keys_nodup k x acc h

lemma buildMap_keys_nodup {κ β : Type} [BEq κ] [LawfulBEq κ]
    (keyOf : β → Option κ) (l : List β) :
    (((buildMap keyOf l).map (·.1)).Nodup) :=
  buildMap_keys_nodup_aux keyOf l [] (by simp)

lemma alistGet_of_mem_nodup {κ α : Type} [BEq κ] [LawfulBEq κ]
    (m : List (κ × α)) (kv : κ × α) (hnd : (m.map (·.1)).Nodup) (hkv : kv ∈ m) :
    alistGet kv.1 m = some kv.2 := by
  induction m with
  | nil => simp at hkv
  | cons kv2 rest ih =>
    obtain ⟨k3, v3⟩ := kv2
    simp only [List.map_cons, List.nodup_cons] at hnd
    rcases List.mem_cons.mp hkv with h1 | h1
    · rw [h1]
      simp [alistGet]
    · have hne2 : ¬ (k3 == kv.1) = true := by
        simp only [beq_iff_eq]
        intro he
        exact hnd.1 (he ▸ List.mem_map_of_mem _ h1)
      rw [alistGet, if_neg hne2]
      exact ih hnd.2 h1

/-- Value of the result mapping under the db-failure fallback: one
single-identifier resolution per valid normalized ticker key. -/
lemma tickersFallback_eval (cache : Cache) (tickers : List String)
    (kv : String × String) (hkv : kv ∈ buildTickerMap tickers) :
    alistGet kv.2 (tickersFallback cache tickers) =
      some (get_company_by_ticker_single cache kv.1) := by
  have hnd : (((buildTickerMap tickers).map (·.1)).Nodup) := buildMap_keys_nodup _ _
  have hget : alistGet kv.1 (buildTickerMap tickers) = some kv.2 :=
    alistGet_of_mem_nodup _ kv hnd hkv
  have hv : kv.2 = (alistGet kv.1 (buildTickerMap tickers)).getD "" := by
    rw [hget]; rfl
  unfold tickersFallback
  rw [hv]
  apply foldl_upsert_get (fun tu => (alistGet tu (buildTickerMap tickers)).getD "")
    (fun tu => get_company_by_ticker_single cache tu)
  · exact List.mem_map_of_mem _ hkv
  · intro u hu hg
    obtain ⟨kvu, hkvu, hu1⟩ := List.mem_map.mp hu
    have hgu : alistGet u (buildTickerMap tickers) = some kvu.2 := by
      rw [← hu1]
      exact alistGet_of_mem_nodup _ kvu hnd hkvu
    rw [hgu, hget] at hg
    have hval : kvu.2 = kv.2 := by simpa using hg
    have h1 := (buildMap_mem tickerKey tickers kvu hkvu).1
    have h2 := (buildMap_mem tickerKey tickers kv hkv).1
    rw [hval, h2] at h1
    have : u = kv.1 := by
      rw [← hu1]
      exact (Option.some.inj h1).symm
    rw [this]

/-- Blank tickers keep their INVALID_INPUT entries through the fallback. -/
lemma tickersFallback_invalid (cache : Cache) (tickers : List String)
    (t : String) (ht : t ∈ tickers) (hinv : trimStr t = "") :
    alistGet t (tickersFallback cache tickers) =
      some (.failure "Invalid ticker: empty or whitespace" .INVALID_INPUT) := by
  unfold tickersFallback
  rw [foldl_upsert_pres]
  · unfold invalidTickerResults
    have hmem : t ∈ tickers.filter (fun t => trimStr t == "") := by
      rw [List.mem_filter]
      exact ⟨ht, by simp [hinv]⟩
    exact foldl_upsert_get (fun t => t)
      (fun _ => Outcome.failure "Invalid ticker: empty or whitespace" .INVALID_INPUT)
      _ [] t hmem (fun _ _ _ => rfl)
  · intro u hu
    obtain ⟨kvu, hkvu, hu1⟩ := List.mem_map.mp hu
    have hgu : alistGet u (buildTickerMap tickers) = some kvu.2 := by
      rw [← hu1]
      exact alistGet_of_mem_nodup _ kvu (buildMap_keys_nodup _ _) hkvu
    rw [hgu]
    have h1 := (buildMap_mem tickerKey tickers kvu hkvu).1
    unfold tickerKey at h1
    intro he
    by_cases hb : trimStr kvu.2 = ""
    · rw [if_pos hb] at h1; exact Option.noConfusion h1
    · exact hb (by rw [← he] at hinv; exact hinv)

/-- Value of the CIK result mapping under the db-failure fallback. -/
lemma ciksFallback_eval (cache : Cache) (ciks : List PyVal)
    (kv : Int × PyVal) (hkv : kv ∈ cikMap ciks) :
    alistGet kv.2 (ciksFallback cache ciks) =
      some (get_company_by_cik_single cache kv.2) := by
  have hnd : (((cikMap ciks).map (·.1)).Nodup) := buildMap_keys_nodup _ _
  have hget : alistGet kv.1 (cikMap ciks) = some kv.2 :=
    alistGet_of_mem_nodup _ kv hnd hkv
  have hv : kv.2 = (alistGet kv.1 (cikMap ciks)).getD .other := by
    rw [hget]; rfl
  unfold ciksFallback
  conv_lhs => rw [hv]
  conv_rhs => rw [hv]
  apply foldl_upsert_get (fun n => (alistGet n (cikMap ciks)).getD .other)
    (fun n => get_company_by_cik_single cache ((alistGet n (cikMap ciks)).getD .other))
  · have h1 := buildMap_mem normalize_cik ciks kv hkv
    exact List.mem_filterMap.mpr ⟨kv.2, h1.2, h1.1⟩
  · intro u hu hg
    rw [hg]

/-- Invalid CIKs keep their INVALID_INPUT entries through the fallback. -/
lemma ciksFallback_invalid (cache : Cache) (ciks : List PyVal)
    (c : PyVal) (hc : c ∈ ciks) (hinv : normalize_cik c = none) :
    alistGet c (ciksFallback cache ciks) =
      some (.failure ("Invalid CIK: " ++ pyRepr c ++ " could not be normalized")
        .INVALID_INPUT) := by
  unfold ciksFallback
  rw [foldl_upsert_pres]
  · unfold invalidCikResults
    have hmem : c ∈ ciks.filter (fun c => (normalize_cik c).isNone) := by
      rw [List.mem_filter]
      exact ⟨hc, by simp [hinv]⟩
    exact foldl_upsert_get (fun c => c)
      (fun c => Outcome.failure ("Invalid CIK: " ++ pyRepr c ++ " could not be normalized")
        .INVALID_INPUT) _ [] c hmem
      (fun u _ hg => by rw [show u = c from hg])
  · intro u hu
    obtain ⟨c2, hc2, hn⟩ := List.mem_filterMap.mp hu
    have hkv2 : (u, c2) ∈ cikMap ciks ∨ True := Or.inr trivial
    intro he
    have hcov : (alistGet u (cikMap ciks)).isSome = true :=
      buildMap_covers normalize_cik ciks c2 u hc2 hn
    obtain ⟨v, hv⟩ := Option.isSome_iff_exists.mp hcov
    rw [hv] at he
    have h1 := (buildMap_mem normalize_cik ciks (u, v) (alistGet_mem_self _ _ _ hv)).1
    simp only at h1
    rw [show v = c from he] at h1
    rw [hinv] at h1
    exact Option.noConfusion h1

/-- C6 counterexample: ciks ["0123", 123] both normalize to 123, so
cik_map keeps only the last raw form (the int 123); with the bulk query
failing, the fallback produces no outcome under the raw string "0123" —
"an outcome for every supplied identifier" fails under normalization
collapse. -/
theorem cik_batch_collapsed_key_missing :
    PyVal.str "0123" ∈ ([.str "0123", .int 123] : List PyVal) ∧
    alistGet (PyVal.str "0123")
      (get_companies_by_ciks_batch (load_data_to_memory [])
        (fun _ => .error ()) [.str "0123", .int 123]) = none := by
  constructor
  · decide
  · decide

/-- C6 (amended): when the one bulk persistent-index query fails, each
batch coordinator falls back to the single-identifier resolver once per
valid normalized key and completes without propagating the failure: the
result is exactly the fallback mapping; every entry of the collapsed key
map carries the single-resolver outcome of its key; every invalid raw
identifier keeps its INVALID_INPUT entry; and every valid raw identifier
is covered through its collapse representative (the last-supplied raw form
with the same normalized key) — identifiers sharing a normalized form share
one entry rather than each getting their own. -/
theorem batch_bulk_failure_fallback (cache : Cache)
    (dbt : List String → Except Unit (List (String × List CompanyData)))
    (dbc : List Int → Except Unit (List (Int × List CompanyData)))
    (tickers : List String) (ciks : List PyVal)
    (hdbt : dbt ((buildTickerMap tickers).map (·.1)) = .error ())
    (hdbc : dbc (normCiks ciks) = .error ()) :
    get_companies_by_tickers_batch cache dbt tickers = tickersFallback cache tickers ∧
    get_companies_by_ciks_batch cache dbc ciks = ciksFallback cache ciks ∧
    (∀ kv ∈ buildTickerMap tickers,
      alistGet kv.2 (get_companies_by_tickers_batch cache dbt tickers) =
        some (get_company_by_ticker_single cache kv.1)) ∧
    (∀ t ∈ tickers, trimStr t = "" →
      alistGet t (get_companies_by_tickers_batch cache dbt tickers) =
        some (.failure "Invalid ticker: empty or whitespace" .INVALID_INPUT)) ∧
    (∀ t ∈ tickers, trimStr t ≠ "" →
      ∃ t2, alistGet (upperStr (trimStr t)) (buildTickerMap tickers) = some t2 ∧
        (alistGet t2 (get_companies_by_tickers_batch cache dbt tickers)).isSome = true) ∧
    (∀ kv ∈ cikMap ciks,
      alistGet kv.2 (get_companies_by_ciks_batch cache dbc ciks) =
        some (get_company_by_cik_single cache kv.2)) ∧
    (∀ c ∈ ciks, normalize_cik c = none →
      alistGet c (get_companies_by_ciks_batch cache dbc ciks) =
        some (.failure ("Invalid CIK: " ++ pyRepr c ++ " could not be normalized")
          .INVALID_INPUT)) ∧
    (∀ c ∈ ciks, ∀ n, normalize_cik c = some n →
      ∃ c2, alistGet n (cikMap ciks) = some c2 ∧
        (alistGet c2 (get_companies_by_ciks_batch cache dbc ciks)).isSome = true) := by
  have hpt : get_companies_by_tickers_batch cache dbt tickers =
      tickersFallback cache tickers := by
    by_cases he : tickers = []
    · subst he
      rfl
    · have hne : tickers.isEmpty = false := by
        simpa [List.isEmpty_iff] using he
      unfold get_companies_by_tickers_batch
      rw [if_neg (by simp [hne]), hdbt]
  have hpc : get_companies_by_ciks_batch cache dbc ciks =
      ciksFallback cache ciks := by
    by_cases he : ciks = []
    · subst he
      rfl
    · have hne : ciks.isEmpty = false := by
        simpa [List.isEmpty_iff] using he
      unfold get_companies_by_ciks_batch
      rw [if_neg (by simp [hne]), hdbc]
  refine ⟨hpt, hpc, ?_, ?_, ?_, ?_, ?_, ?_⟩
  · intro kv hkv
    rw [hpt]
    exact tickersFallback_eval cache tickers kv hkv
  · intro t ht hinv
    rw [hpt]
    exact tickersFallback_invalid cache tickers t ht hinv
  · intro t ht hval
    have hk : tickerKey t = some (upperStr (trimStr t)) := by
      unfold tickerKey
      rw [if_neg hval]
    have hcov : (alistGet (upperStr (trimStr t)) (buildTickerMap tickers)).isSome = true :=
      buildMap_covers tickerKey tickers t _ ht hk
    obtain ⟨t2, ht2⟩ := Option.isSome_iff_exists.mp hcov
    refine ⟨t2, ht2, ?_⟩
    rw [hpt, tickersFallback_eval cache tickers (upperStr (trimStr t), t2)
      (alistGet_mem_self _ _ _ ht2)]
    rfl
  · intro kv hkv
    rw [hpc]
    exact ciksFallback_eval cache ciks kv hkv
  · intro c hc hinv
    rw [hpc]
    exact ciksFallback_invalid cache ciks c hc hinv
  · intro c hc n hn
    have hcov : (alistGet n (cikMap ciks)).isSome = true :=
      buildMap_covers normalize_cik ciks c n hc hn
    obtain ⟨c2, hc2⟩ := Option.isSome_iff_exists.mp hcov
    refine ⟨c2, hc2, ?_⟩
    rw [hpc, ciksFallback_eval cache ciks (n, c2) (alistGet_mem_self _ _ _ hc2)]
    rfl

/-- C6 witness: concrete corpus, one valid and one blank ticker, one valid
and one unnormalizable CIK, with failing bulk queries — both batches equal
their fallback mappings. -/
theorem batch_bulk_failure_fallback_witness :
    get_companies_by_tickers_batch
        (load_data_to_memory [.dict (.int 320193) "AAPL" "Apple Inc."])
        (fun _ => .error ()) ["AAPL", " "] =
      tickersFallback (load_data_to_memory [.dict (.int 320193) "AAPL" "Apple Inc."])
        ["AAPL", " "] ∧
    get_companies_by_ciks_batch
        (load_data_to_memory [.dict (.int 320193) "AAPL" "Apple Inc."])
        (fun _ => .error ()) [.int 320193, .other] =
      ciksFallback (load_data_to_memory [.dict (.int 320193) "AAPL" "Apple Inc."])
        [.int 320193, .other] :=
  ⟨(batch_bulk_failure_fallback _ (fun _ => .error ()) (fun _ => .error ())
      ["AAPL", " "] [.int 320193, .other] rfl rfl).1,
   (batch_bulk_failure_fallback _ (fun _ => .error ()) (fun _ => .error ())
      ["AAPL", " "] [.int 320193, .other] rfl rfl).2.1⟩

lemma tickerKey_some (t k : String) (h : tickerKey t = some k) :
    trimStr t ≠ "" ∧ k = upperStr (trimStr t) := by
  unfold tickerKey at h
  by_cases hb : trimStr t = ""
  · rw [if_pos hb] at h
    exact Option.noConfusion h
  · rw [if_neg hb] at h
    exact ⟨hb, (Option.some.inj h).symm⟩

lemma nodup_keys_eq {κ α : Type} [BEq κ] [LawfulBEq κ] (m : List (κ × α))
    (hnd : (m.map (·.1)).Nodup) (kv kv' : κ × α) (h1 : kv ∈ m) (h2 : kv' ∈ m)
    (hk : kv.1 = kv'.1) : kv = kv' := by
  have g1 := alistGet_of_mem_nodup m kv hnd h1
  have g2 := alistGet_of_mem_nodup m kv' hnd h2
  rw [hk, g2] at g1
  exact Prod.ext hk (Option.some.inj g1).symm

/-- Membership decomposition for the ensure-all loop of the CIK batch. -/
lemma ensureFold_mem {κ α β : Type} [BEq κ] [LawfulBEq κ]
    (nf : κ → α) (val : β → κ) (cmap : List β) (acc : List (κ × α)) (kv : κ × α)
    (h : kv ∈ cmap.foldl
      (fun r u => if (alistGet (val u) r).isSome then r else upsert (val u) (nf (val u)) r)
      acc) :
    kv ∈ acc ∨ ∃ u ∈ cmap, kv = (val u, nf (val u)) := by
  induction cmap generalizing acc with
  | nil => exact Or.inl h
  | cons u rest ih =>
    rw [List.foldl_cons] at h
    rcases ih _ h with h1 | h1
    · by_cases hs : (alistGet (val u) acc).isSome = true
      · rw [if_pos hs] at h1
        exact Or.inl h1
      · rw [if_neg hs] at h1
        rcases upsert_mem _ _ _ _ h1 with h2 | h2
        · exact Or.inr ⟨u, List.mem_cons_self _ _, h2⟩
        · exact Or.inl h2
    · obtain ⟨u2, hu2, he⟩ := h1
      exact Or.inr ⟨u2, List.mem_cons_of_mem _ hu2, he⟩

/-- The ensure-all loop never drops an existing entry. -/
lemma ensureFold_isSome_mono {κ α β : Type} [BEq κ] [LawfulBEq κ]
    (nf : κ → α) (val : β → κ) (cmap : List β) (acc : List (κ × α)) (k : κ)
    (h : (alistGet k acc).isSome = true) :
    (alistGet k (cmap.foldl
      (fun r u => if (alistGet (val u) r).isSome then r else upsert (val u) (nf (val u)) r)
      acc)).isSome = true := by
  induction cmap generalizing acc with
  | nil => exact h
  | cons u rest ih =>
    rw [List.foldl_cons]
    apply ih
    by_cases hs : (alistGet (val u) acc).isSome = true
    · rw [if_pos hs]; exact h
    · rw [if_neg hs]
      by_cases hk : val u = k
      · rw [← hk, alistGet_upsert_self]; rfl
      · rw [alistGet_upsert_ne _ _ _ _ (Ne.symm hk)]; exact h

/-- The ensure-all loop covers every value of the collapsed key map. -/
lemma ensureFold_covers {κ α β : Type} [BEq κ] [LawfulBEq κ]
    (nf : κ → α) (val : β → κ) (cmap : List β) (acc : List (κ × α)) (u : β)
    (hu : u ∈ cmap) :
    (alistGet (val u) (cmap.foldl
      (fun r u => if (alistGet (val u) r).isSome then r else upsert (val u) (nf (val u)) r)
      acc)).isSome = true := by
  induction cmap generalizing acc with
  | nil => simp at hu
  | cons u2 rest ih =>
    rw [List.foldl_cons]
    rcases List.mem_cons.mp hu with h1 | h1
    · subst h1
      apply ensureFold_isSome_mono
      by_cases hs : (alistGet (val u) acc).isSome = true
      · rw [if_pos hs]; exact hs
      · rw [if_neg hs, alistGet_upsert_self]; rfl
    · exact ih _ h1

/-- The ensure-all loop does not touch keys outside the collapsed key map. -/
lemma ensureFold_pres {κ α β : Type} [BEq κ] [LawfulBEq κ]
    (nf : κ → α) (val : β → κ) (cmap : List β) (acc : List (κ × α)) (k : κ)
    (h : ∀ u ∈ cmap, val u ≠ k) :
    alistGet k (cmap.foldl
      (fun r u => if (alistGet (val u) r).isSome then r else upsert (val u) (nf (val u)) r)
      acc) = alistGet k acc := by
  induction cmap generalizing acc with
  | nil => rfl
  | cons u rest ih =>
    rw [List.foldl_cons, ih _ (fun u2 hu2 => h u2 (List.mem_cons_of_mem _ hu2))]
    by_cases hs : (alistGet (val u) acc).isSome = true
    · rw [if_pos hs]
    · rw [if_neg hs, alistGet_upsert_ne _ _ _ _ (Ne.symm (h u (List.mem_cons_self _ _)))]

/-- C4 counterexample: the distinct raw tickers "aapl" and "AAPL" share the
normalized key AAPL, so ticker_map keeps only the last raw form and the
batch result has no entry under the supplied key "aapl" — the keys of the
mapping are not all the original raw identifiers. -/
theorem ticker_batch_collapsed_key_missing :
    "aapl" ∈ (["aapl", "AAPL"] : List String) ∧
    alistGet "aapl"
      (get_companies_by_tickers_batch (load_data_to_memory [])
        (fun ks => .ok (ks.map (fun k => (k, [])))) ["aapl", "AAPL"]) = none := by
  constructor
  · decide
  · decide

/-- C4 (amended): for a bulk query that returns one row per requested
normalized key (keys within the requested set, no duplicates), each batch
coordinator returns a mapping whose keys are drawn verbatim from the
supplied raw identifiers; identifiers failing normalization map to
INVALID_INPUT, every valid identifier is covered through its collapse
representative (the last-supplied raw form with the same normalized key) —
and exactly verbatim whenever distinct valid identifiers have distinct
normalized forms; outcomes are success, or INVALID_INPUT exactly for
identifiers that fail normalization, or NOT_FOUND only for well-formed
identifiers. -/
theorem batch_keys_and_codes (cache : Cache)
    (dbt : List String → Except Unit (List (String × List CompanyData)))
    (dbc : List Int → Except Unit (List (Int × List CompanyData)))
    (tickers : List String) (ciks : List PyVal)
    (m : List (String × List CompanyData)) (mc : List (Int × List CompanyData))
    (hdbt : dbt ((buildTickerMap tickers).map (·.1)) = .ok m)
    (hk1 : ∀ kv ∈ m, (alistGet kv.1 (buildTickerMap tickers)).isSome = true)
    (hk2 : ∀ k ∈ (buildTickerMap tickers).map (·.1), k ∈ m.map (·.1))
    (hnd : (m.map (·.1)).Nodup)
    (hdbc : dbc (normCiks ciks) = .ok mc)
    (hk1c : ∀ kv ∈ mc, (alistGet kv.1 (cikMap ciks)).isSome = true) :
    (∀ kv ∈ get_companies_by_tickers_batch cache dbt tickers, kv.1 ∈ tickers) ∧
    (∀ t ∈ tickers, trimStr t = "" →
      alistGet t (get_companies_by_tickers_batch cache dbt tickers) =
        some (.failure "Invalid ticker: empty or whitespace" .INVALID_INPUT)) ∧
    (∀ t ∈ tickers, trimStr t ≠ "" →
      ∃ t2, alistGet (upperStr (trimStr t)) (buildTickerMap tickers) = some t2 ∧
        (alistGet t2 (get_companies_by_tickers_batch cache dbt tickers)).isSome = true) ∧
    ((∀ t1 ∈ tickers, ∀ t2 ∈ tickers, trimStr t1 ≠ "" → trimStr t2 ≠ "" →
        upperStr (trimStr t1) = upperStr (trimStr t2) → t1 = t2) →
      ∀ t ∈ tickers,
        (alistGet t (get_companies_by_tickers_batch cache dbt tickers)).isSome = true) ∧
    (∀ kv ∈ get_companies_by_tickers_batch cache dbt tickers,
      (∀ e, kv.2 = .failure e .INVALID_INPUT → trimStr kv.1 = "") ∧
      (∀ e, kv.2 = .failure e .NOT_FOUND → trimStr kv.1 ≠ "") ∧
      (∀ d, kv.2 = .success d → trimStr kv.1 ≠ "")) ∧
    (∀ kv ∈ get_companies_by_ciks_batch cache dbc ciks, kv.1 ∈ ciks) ∧
    (∀ c ∈ ciks, normalize_cik c = none →
      alistGet c (get_companies_by_ciks_batch cache dbc ciks) =
        some (.failure ("Invalid CIK: " ++ pyRepr c ++ " could not be normalized")
          .INVALID_INPUT)) ∧
    (∀ kv ∈ cikMap ciks,
      (alistGet kv.2 (get_companies_by_ciks_batch cache dbc ciks)).isSome = true) ∧
    (∀ kv ∈ get_companies_by_ciks_batch cache dbc ciks,
      (∀ e, kv.2 = .failure e .INVALID_INPUT → normalize_cik kv.1 = none) ∧
      (∀ e, kv.2 = .failure e .NOT_FOUND → normalize_cik kv.1 ≠ none) ∧
      (∀ d, kv.2 = .success d → normalize_cik kv.1 ≠ none)) := by
  have hvalfact : ∀ u ∈ m, ∃ v, alistGet u.1 (buildTickerMap tickers) = some v ∧
      trimStr v ≠ "" ∧ v ∈ tickers ∧ u.1 = upperStr (trimStr v) := by
    intro u hu
    obtain ⟨v, hv⟩ := Option.isSome_iff_exists.mp (hk1 u hu)
    have hmem := alistGet_mem_self _ _ _ hv
    have hbm := buildMap_mem tickerKey tickers (u.1, v) hmem
    obtain ⟨hb, hupk⟩ := tickerKey_some v u.1 hbm.1
    exact ⟨v, hv, hb, hbm.2, hupk⟩
  have hvalfactC : ∀ u ∈ mc, ∃ v, alistGet u.1 (cikMap ciks) = some v ∧
      normalize_cik v = some u.1 ∧ v ∈ ciks := by
    intro u hu
    obtain ⟨v, hv⟩ := Option.isSome_iff_exists.mp (hk1c u hu)
    have hmem := alistGet_mem_self _ _ _ hv
    have hbm := buildMap_mem normalize_cik ciks (u.1, v) hmem
    exact ⟨v, hv, hbm.1, hbm.2⟩
  have htick : (∀ kv ∈ get_companies_by_tickers_batch cache dbt tickers, kv.1 ∈ tickers) ∧
      (∀ t ∈ tickers, trimStr t = "" →
        alistGet t (get_companies_by_tickers_batch cache dbt tickers) =
          some (.failure "Invalid ticker: empty or whitespace" .INVALID_INPUT)) ∧
      (∀ t ∈ tickers, trimStr t ≠ "" →
        ∃ t2, alistGet (upperStr (trimStr t)) (buildTickerMap tickers) = some t2 ∧
          (alistGet t2 (get_companies_by_tickers_batch cache dbt tickers)).isSome = true) ∧
      (∀ kv ∈ get_companies_by_tickers_batch cache dbt tickers,
        (∀ e, kv.2 = .failure e .INVALID_INPUT → trimStr kv.1 = "") ∧
        (∀ e, kv.2 = .failure e .NOT_FOUND → trimStr kv.1 ≠ "") ∧
        (∀ d, kv.2 = .success d → trimStr kv.1 ≠ "")) := by
    by_cases het : tickers = []
    · subst het
      refine ⟨?_, ?_, ?_, ?_⟩ <;> intro x hx <;> simp [get_companies_by_tickers_batch] at hx
    · have hne : tickers.isEmpty = false := by simpa [List.isEmpty_iff] using het
      have hall : m.all (fun kv => (alistGet kv.1 (buildTickerMap tickers)).isSome) = true :=
        List.all_eq_true.mpr hk1
      have hres : get_companies_by_tickers_batch cache dbt tickers =
          m.foldl (fun r kv =>
            upsert ((alistGet kv.1 (buildTickerMap tickers)).getD "")
              (tickerDbOutcome ((alistGet kv.1 (buildTickerMap tickers)).getD "") kv.2) r)
            (invalidTickerResults tickers) := by
        unfold get_companies_by_tickers_batch
        rw [if_neg (by simp [hne]), hdbt]
        dsimp only
        rw [if_pos hall]
      refine ⟨?_, ?_, ?_, ?_⟩
      · intro kv hkv
        rw [hres] at hkv
        rcases foldl_upsert_mem _ _ _ _ _ hkv with h1 | h1
        · unfold invalidTickerResults at h1
          rcases foldl_upsert_mem _ _ _ _ _ h1 with h2 | h2
          · simp at h2
          · obtain ⟨u, hu, he⟩ := h2
            rw [he]
            exact (List.mem_filter.mp hu).1
        · obtain ⟨u, hu, he⟩ := h1
          obtain ⟨v, hv, _, hvin, _⟩ := hvalfact u hu
          rw [he]
          simpa [hv] using hvin
      · intro t ht hb
        rw [hres, foldl_upsert_pres]
        · unfold invalidTickerResults
          exact foldl_upsert_get (fun t => t)
            (fun _ => Outcome.failure "Invalid ticker: empty or whitespace" .INVALID_INPUT)
            _ [] t (List.mem_filter.mpr ⟨ht, by simp [hb]⟩) (fun _ _ _ => rfl)
        · intro u hu
          obtain ⟨v, hv, hval, _, _⟩ := hvalfact u hu
          rw [hv]
          intro he
          simp only [Option.getD_some] at he
          exact hval (he ▸ hb)
      · intro t ht hvalT
        have hkey : tickerKey t = some (upperStr (trimStr t)) := by
          unfold tickerKey
          rw [if_neg hvalT]
        have hcov : (alistGet (upperStr (trimStr t)) (buildTickerMap tickers)).isSome = true :=
          buildMap_covers tickerKey tickers t _ ht hkey
        obtain ⟨t2, ht2⟩ := Option.isSome_iff_exists.mp hcov
        refine ⟨t2, ht2, ?_⟩
        have hKmem : upperStr (trimStr t) ∈ (buildTickerMap tickers).map (·.1) :=
          List.mem_map_of_mem _ (alistGet_mem_self _ _ _ ht2)
        obtain ⟨u0, hu0, hu0k⟩ := List.mem_map.mp (hk2 _ hKmem)
        have hg0 : (alistGet u0.1 (buildTickerMap tickers)).getD "" = t2 := by
          rw [hu0k, ht2]
          rfl
        rw [hres, show t2 = (alistGet u0.1 (buildTickerMap tickers)).getD "" from hg0.symm]
        rw [foldl_upsert_get (fun u => (alistGet u.1 (buildTickerMap tickers)).getD "")
          (fun u => tickerDbOutcome ((alistGet u.1 (buildTickerMap tickers)).getD "") u.2)
          m _ u0 hu0 ?_]
        · rfl
        · intro u hu hg
          have hueq : u = u0 := by
            obtain ⟨v, hv, _, _, hup⟩ := hvalfact u hu
            obtain ⟨v0, hv0, _, _, hup0⟩ := hvalfact u0 hu0
            have hg2 : (alistGet u.1 (buildTickerMap tickers)).getD "" =
                (alistGet u0.1 (buildTickerMap tickers)).getD "" := hg
            rw [hv, hv0] at hg2
            simp only [Option.getD_some] at hg2
            apply nodup_keys_eq m hnd u u0 hu hu0
            rw [hup, hup0, hg2]
          rw [hueq]
      · intro kv hkv
        rw [hres] at hkv
        rcases foldl_upsert_mem _ _ _ _ _ hkv with h1 | h1
        · unfold invalidTickerResults at h1
          rcases foldl_upsert_mem _ _ _ _ _ h1 with h2 | h2
          · simp at h2
          · obtain ⟨u, hu, he⟩ := h2
            have hb : trimStr u = "" := by
              have := (List.mem_filter.mp hu).2
              simpa using this
            rw [he]
            refine ⟨fun e _ => hb, fun e hcode => ?_, fun d hd => ?_⟩
            · exact absurd ((Outcome.failure.injEq _ _ _ _).mp hcode).2
                (by intro h3; exact ErrCode.noConfusion h3)
            · exact Outcome.noConfusion hd
        · obtain ⟨u, hu, he⟩ := h1
          obtain ⟨v, hv, hval, _, _⟩ := hvalfact u hu
          have hkey1 : kv.1 = v := by rw [he]; simp [hv]
          refine ⟨fun e hcode => ?_, fun e _ => ?_, fun d _ => ?_⟩
          · exfalso
            have hkv2 : kv.2 = tickerDbOutcome ((alistGet u.1 (buildTickerMap tickers)).getD "") u.2 := by
              rw [he]
            rw [hkv2] at hcode
            unfold tickerDbOutcome at hcode
            cases hu2 : u.2 with
            | nil =>
              rw [hu2] at hcode
              exact absurd ((Outcome.failure.injEq _ _ _ _).mp hcode).2
                (by intro h3; exact ErrCode.noConfusion h3)
            | cons c rest =>
              rw [hu2] at hcode
              exact Outcome.noConfusion hcode
          · rw [hkey1]; exact hval
          · rw [hkey1]; exact hval
  have hcik : (∀ kv ∈ get_companies_by_ciks_batch cache dbc ciks, kv.1 ∈ ciks) ∧
      (∀ c ∈ ciks, normalize_cik c = none →
        alistGet c (get_companies_by_ciks_batch cache dbc ciks) =
          some (.failure ("Invalid CIK: " ++ pyRepr c ++ " could not be normalized")
            .INVALID_INPUT)) ∧
      (∀ kv ∈ cikMap ciks,
        (alistGet kv.2 (get_companies_by_ciks_batch cache dbc ciks)).isSome = true) ∧
      (∀ kv ∈ get_companies_by_ciks_batch cache dbc ciks,
        (∀ e, kv.2 = .failure e .INVALID_INPUT → normalize_cik kv.1 = none) ∧
        (∀ e, kv.2 = .failure e .NOT_FOUND → normalize_cik kv.1 ≠ none) ∧
        (∀ d, kv.2 = .success d → normalize_cik kv.1 ≠ none)) := by
    by_cases hec : ciks = []
    · subst hec
      refine ⟨?_, ?_, ?_, ?_⟩ <;> intro x hx <;>
        simp [get_companies_by_ciks_batch, cikMap, buildMap] at hx
    · have hne : ciks.isEmpty = false := by simpa [List.isEmpty_iff] using hec
      have hall : mc.all (fun kv => (alistGet kv.1 (cikMap ciks)).isSome) = true :=
        List.all_eq_true.mpr hk1c
      have hres : get_companies_by_ciks_batch cache dbc ciks =
          (cikMap ciks).foldl
            (fun r u => if (alistGet u.2 r).isSome then r
              else upsert u.2 (Outcome.failure ("CIK " ++ pyRepr u.2 ++ " not found")
                .NOT_FOUND) r)
            (mc.foldl (fun r kv =>
              upsert ((alistGet kv.1 (cikMap ciks)).getD .other)
                (cikDbOutcome ((alistGet kv.1 (cikMap ciks)).getD .other) kv.2) r)
              (invalidCikResults ciks)) := by
        unfold get_companies_by_ciks_batch
        rw [if_neg (by simp [hne]), hdbc]
        dsimp only
        rw [if_pos hall]
      refine ⟨?_, ?_, ?_, ?_⟩
      · intro kv hkv
        rw [hres] at hkv
        rcases ensureFold_mem (fun c => Outcome.failure ("CIK " ++ pyRepr c ++ " not found")
            ErrCode.NOT_FOUND) (fun u : Int × PyVal => u.2) (cikMap ciks) _ kv hkv with h1 | h1
        · rcases foldl_upsert_mem _ _ _ _ _ h1 with h2 | h2
          · unfold invalidCikResults at h2
            rcases foldl_upsert_mem _ _ _ _ _ h2 with h3 | h3
            · simp at h3
            · obtain ⟨u, hu, he⟩ := h3
              rw [he]
              exact (List.mem_filter.mp hu).1
          · obtain ⟨u, hu, he⟩ := h2
            obtain ⟨v, hv, _, hvin⟩ := hvalfactC u hu
            rw [he]
            simpa [hv] using hvin
        · obtain ⟨u, hu, he⟩ := h1
          rw [he]
          exact (buildMap_mem normalize_cik ciks u hu).2
      · intro c hc hinv
        have hpres1 : ∀ u ∈ cikMap ciks, (fun u : Int × PyVal => u.2) u ≠ c := by
          intro u hu
          have hn := (buildMap_mem normalize_cik ciks u hu).1
          intro he
          have he2 : u.2 = c := he
          rw [he2, hinv] at hn
          exact Option.noConfusion hn
        rw [hres, ensureFold_pres
          (fun c2 => Outcome.failure ("CIK " ++ pyRepr c2 ++ " not found") ErrCode.NOT_FOUND)
          (fun u : Int × PyVal => u.2) (cikMap ciks) _ c hpres1]
        rw [foldl_upsert_pres]
        · unfold invalidCikResults
          exact foldl_upsert_get (fun c => c)
            (fun c => Outcome.failure
              ("Invalid CIK: " ++ pyRepr c ++ " could not be normalized") .INVALID_INPUT)
            _ [] c (List.mem_filter.mpr ⟨hc, by simp [hinv]⟩)
            (fun u _ hg => by rw [show u = c from hg])
        · intro u hu
          obtain ⟨v, hv, hn, _⟩ := hvalfactC u hu
          rw [hv]
          intro he
          simp only [Option.getD_some] at he
          rw [he, hinv] at hn
          exact Option.noConfusion hn
      · intro kv hkv
        rw [hres]
        exact ensureFold_covers
          (fun c => Outcome.failure ("CIK " ++ pyRepr c ++ " not found") ErrCode.NOT_FOUND)
          (fun u : Int × PyVal => u.2) (cikMap ciks) _ kv hkv
      · intro kv hkv
        rw [hres] at hkv
        rcases ensureFold_mem (fun c => Outcome.failure ("CIK " ++ pyRepr c ++ " not found")
            ErrCode.NOT_FOUND) (fun u : Int × PyVal => u.2) (cikMap ciks) _ kv hkv with h1 | h1
        · rcases foldl_upsert_mem _ _ _ _ _ h1 with h2 | h2
          · unfold invalidCikResults at h2
            rcases foldl_upsert_mem _ _ _ _ _ h2 with h3 | h3
            · simp at h3
            · obtain ⟨u, hu, he⟩ := h3
              have hinv : normalize_cik u = none := by
                have := (List.mem_filter.mp hu).2
                simpa [Option.isNone_iff_eq_none] using this
              rw [he]
              refine ⟨fun e _ => hinv, fun e hcode => ?_, fun d hd => ?_⟩
              · exact absurd ((Outcome.failure.injEq _ _ _ _).mp hcode).2
                  (by intro h3; exact ErrCode.noConfusion h3)
              · exact Outcome.noConfusion hd
          · obtain ⟨u, hu, he⟩ := h2
            obtain ⟨v, hv, hn, _⟩ := hvalfactC u hu
            have hkey1 : kv.1 = v := by rw [he]; simp [hv]
            have hnn : normalize_cik kv.1 ≠ none := by
              rw [hkey1, hn]
              exact fun h3 => Option.noConfusion h3
            refine ⟨fun e hcode => ?_, fun e _ => hnn, fun d _ => hnn⟩
            exfalso
            have hkv2 : kv.2 = cikDbOutcome ((alistGet u.1 (cikMap ciks)).getD .other) u.2 := by
              rw [he]
            rw [hkv2] at hcode
            unfold cikDbOutcome at hcode
            by_cases hu2 : u.2.isEmpty = true
            · rw [if_pos hu2] at hcode
              exact absurd ((Outcome.failure.injEq _ _ _ _).mp hcode).2
                (by intro h3; exact ErrCode.noConfusion h3)
            · rw [if_neg hu2] at hcode
              exact Outcome.noConfusion hcode
        · obtain ⟨u, hu, he⟩ := h1
          have hn := (buildMap_mem normalize_cik ciks u hu).1
          have hnn : normalize_cik kv.1 ≠ none := by
            rw [he]
            simp only
            rw [hn]
            exact fun h3 => Option.noConfusion h3
          refine ⟨fun e hcode => ?_, fun e _ => hnn, fun d _ => hnn⟩
          exfalso
          have hkv2 : kv.2 = Outcome.failure ("CIK " ++ pyRepr u.2 ++ " not found")
              .NOT_FOUND := by rw [he]
          rw [hkv2] at hcode
          exact absurd ((Outcome.failure.injEq _ _ _ _).mp hcode).2
            (by intro h3; exact ErrCode.noConfusion h3)
  obtain ⟨hA, hB, hC, hE⟩ := htick
  obtain ⟨hA2, hB2, hC2, hE2⟩ := hcik
  refine ⟨hA, hB, hC, ?_, hE, hA2, hB2, hC2, hE2⟩
  intro hinj t ht
  by_cases hb : trimStr t = ""
  · rw [hB t ht hb]
    rfl
  · obtain ⟨t2, ht2, hsome⟩ := hC t ht hb
    have hmem := alistGet_mem_self _ _ _ ht2
    have hbm := buildMap_mem tickerKey tickers (upperStr (trimStr t), t2) hmem
    obtain ⟨hb2, hup2⟩ := tickerKey_some t2 _ hbm.1
    have : t2 = t := hinj t2 hbm.2 t ht hb2 hb (by rw [← hup2])
    rw [← this]
    exact hsome

/-- C4 witness at the spec example: tickers [AAPL, INVALID, ""] against a
corpus holding AAPL — the blank key keeps INVALID_INPUT verbatim, AAPL and
INVALID each have an entry; the valid CIK of a batch with one
unnormalizable member ("0") is covered. -/
theorem batch_keys_and_codes_witness :
    alistGet ""
      (get_companies_by_tickers_batch
        (load_data_to_memory [.dict (.int 320193) "AAPL" "Apple Inc."])
        (fun ks => .ok (ks.map (fun k =>
          (k, if k == "AAPL" then [⟨320193, "AAPL", "Apple Inc."⟩] else []))))
        ["AAPL", "INVALID", ""]) =
      some (.failure "Invalid ticker: empty or whitespace" .INVALID_INPUT) ∧
    (alistGet "AAPL"
      (get_companies_by_tickers_batch
        (load_data_to_memory [.dict (.int 320193) "AAPL" "Apple Inc."])
        (fun ks => .ok (ks.map (fun k =>
          (k, if k == "AAPL" then [⟨320193, "AAPL", "Apple Inc."⟩] else []))))
        ["AAPL", "INVALID", ""])).isSome = true ∧
    (alistGet (PyVal.int 320193)
      (get_companies_by_ciks_batch
        (load_data_to_memory [.dict (.int 320193) "AAPL" "Apple Inc."])
        (fun ks => .ok (ks.map (fun k =>
          (k, if k == (320193 : Int) then [⟨320193, "AAPL", "Apple Inc."⟩] else []))))
        [.int 320193, .str "0"])).isSome = true :=
  ⟨(batch_keys_and_codes
      (load_data_to_memory [.dict (.int 320193) "AAPL" "Apple Inc."])
      (fun ks => .ok (ks.map (fun k =>
        (k, if k == "AAPL" then [⟨320193, "AAPL", "Apple Inc."⟩] else []))))
      (fun ks => .ok (ks.map (fun k =>
        (k, if k == (320193 : Int) then [⟨320193, "AAPL", "Apple Inc."⟩] else []))))
      ["AAPL", "INVALID", ""] [.int 320193, .str "0"]
      [("AAPL", [⟨320193, "AAPL", "Apple Inc."⟩]), ("INVALID", [])]
      [((320193 : Int), [⟨320193, "AAPL", "Apple Inc."⟩])]
      rfl (by decide) (by decide) (by decide) rfl (by decide)).2.1
      "" (by decide) (by decide),
   (batch_keys_and_codes
      (load_data_to_memory [.dict (.int 320193) "AAPL" "Apple Inc."])
      (fun ks => .ok (ks.map (fun k =>
        (k, if k == "AAPL" then [⟨320193, "AAPL", "Apple Inc."⟩] else []))))
      (fun ks => .ok (ks.map (fun k =>
        (k, if k == (320193 : Int) then [⟨320193, "AAPL", "Apple Inc."⟩] else []))))
      ["AAPL", "INVALID", ""] [.int 320193, .str "0"]
      [("AAPL", [⟨320193, "AAPL", "Apple Inc."⟩]), ("INVALID", [])]
      [((320193 : Int), [⟨320193, "AAPL", "Apple Inc."⟩])]
      rfl (by decide) (by decide) (by decide) rfl (by decide)).2.2.2.1
      (by decide) "AAPL" (by decide),
   (batch_keys_and_codes
      (load_data_to_memory [.dict (.int 320193) "AAPL" "Apple Inc."])
      (fun ks => .ok (ks.map (fun k =>
        (k, if k == "AAPL" then [⟨320193, "AAPL", "Apple Inc."⟩] else []))))
      (fun ks => .ok (ks.map (fun k =>
        (k, if k == (320193 : Int) then [⟨320193, "AAPL", "Apple Inc."⟩] else []))))
      ["AAPL", "INVALID", ""] [.int 320193, .str "0"]
      [("AAPL", [⟨320193, "AAPL", "Apple Inc."⟩]), ("INVALID", [])]
      [((320193 : Int), [⟨320193, "AAPL", "Apple Inc."⟩])]
      rfl (by decide) (by decide) (by decide) rfl (by decide)).2.2.2.2.2.2.2.1
      ((320193 : Int), PyVal.int 320193) (by decide)⟩

end SecLookup
